import Mathlib

set_option maxRecDepth 8000

/-!
Verification development for the splitify grouping engine.

This file gives a shallow embedding of the core of the repository:
the path normalizer (src/unnamed/part_001, `normalizePath`), the grouping
engine's partition state and mutation operations (`GroupingEngine` in
src/unnamed/part_001), the analysis/reconciliation phase (`analyzeChanges`),
the batch-commit orchestrator (`commitAllGroups`), and the streaming
suggestion scanner of the AI service (`extractCompleteGroups` and
`analyzeAndGroupChangesStreaming` in src/unnamed/part_004), together with a
model of strict JSON parsing as performed by the host runtime.

JavaScript strings are modelled as Lean `String` / `List Char`; the JS
whitespace class is modelled by its ASCII members (all inputs considered
here are ASCII); in-place mutation of group objects held in the engine's
array is modelled by functional replacement of the first element with the
matching id, which is exactly the object `Array.prototype.find` returns.
-/

namespace Splitify

/-- ASCII members of the JavaScript whitespace class used by the regular
expression classes in the source and by String.prototype.trim. -/
def isJsWs (c : Char) : Bool :=
  c = ' ' || c = '\t' || c = '\n' || c = '\r' || c = '\x0b' || c = '\x0c'

/-- Model of the JS expression p.replace of every backslash by a slash
(first step of normalizePath, src/unnamed/part_001 line 12). -/
def replaceBackslashes (l : List Char) : List Char :=
  l.map (fun c => if c = '\\' then '/' else c)

/-- Model of the JS replace of the anchored pattern dot-slash by the empty
string: strips a single leading "./" (second step of normalizePath). -/
def stripDotSlash (l : List Char) : List Char :=
  if l.take 2 = ['.', '/'] then l.drop 2 else l

/-- Model of String.prototype.trim: drop whitespace from both ends
(third step of normalizePath). -/
def trimChars (l : List Char) : List Char :=
  ((l.dropWhile isJsWs).reverse.dropWhile isJsWs).reverse

/-- Model of normalizePath (src/unnamed/part_001 lines 11-13): replace all
backslashes by slashes, strip a single leading "./", then trim whitespace. -/
def normalizePath (p : String) : String :=
  String.mk (trimChars (stripDotSlash (replaceBackslashes p.data)))

/-- Status of a file change (src/unnamed/part_005). -/
inductive FileStatus where
  | added | modified | deleted | renamed | untracked
deriving DecidableEq, Repr

/-- Model of the FileChange record (src/unnamed/part_005). -/
structure FileChange where
  path : String
  status : FileStatus
  diff : String
  additions : Nat
  deletions : Nat
  originalPath : Option String
deriving DecidableEq, Repr

/-- Status of a commit group (src/services/grouping/types.ts). -/
inductive GroupStatus where
  | pending | committed | error
deriving DecidableEq, Repr

/-- Model of the CommitGroup record (src/services/grouping/types.ts). -/
structure CommitGroup where
  id : String
  name : String
  message : String
  files : List FileChange
  reasoning : String
  status : GroupStatus
deriving DecidableEq, Repr

/-- Model of a GroupingSuggestion as consumed by the engine
(src/unnamed/part_003): name, message, raw path strings, reasoning. -/
structure Suggestion where
  name : String
  message : String
  files : List String
  reasoning : String
deriving DecidableEq, Repr

/-- The mutable state of one GroupingEngine instance: the group list
`_groups` and the ungrouped pool `_ungroupedFiles`
(src/unnamed/part_001 lines 20-21). -/
structure EngineState where
  groups : List CommitGroup
  ungroupedFiles : List FileChange
deriving DecidableEq, Repr

/-- Model of Array.prototype.find over the group list by id: the first
group whose id matches. -/
def findGroup (gs : List CommitGroup) (i : String) : Option CommitGroup :=
  gs.find? (fun g => g.id == i)

/-- Replace the first group whose id matches, modelling in-place mutation
of the object returned by find. -/
def updateFirst (gs : List CommitGroup) (i : String) (f : CommitGroup → CommitGroup) :
    List CommitGroup :=
  match gs with
  | [] => []
  | g :: rest => if g.id == i then f g :: rest else g :: updateFirst rest i f

/-- Model of files.findIndex by exact path equality followed by splice of
one element: returns the removed element and the remaining list. -/
def removeFirstFile (files : List FileChange) (p : String) :
    Option (FileChange × List FileChange) :=
  match files with
  | [] => none
  | f :: rest =>
    if f.path == p then some (f, rest)
    else (removeFirstFile rest p).map (fun pr => (pr.1, f :: pr.2))

/-- Model of generateGroupId (src/unnamed/part_001 lines 474-476); the
Date.now() timestamp is passed explicitly. -/
def generateGroupId (index : Nat) (now : Nat) : String :=
  "group-" ++ toString index ++ "-" ++ toString now

/-- Model of GroupingEngine.moveFileToGroup (src/unnamed/part_001 lines
287-315).  When fromId = toId the source finds the same array object twice,
so splice-then-push relocates the file to the end of the same group. -/
def moveFileToGroup (s : EngineState) (filePath fromId toId : String) : EngineState :=
  match findGroup s.groups fromId with
  | none => s
  | some fromG =>
    match findGroup s.groups toId with
    | none => s
    | some _ =>
      match removeFirstFile fromG.files filePath with
      | none => s
      | some (file, rest) =>
        if fromId == toId then
          let gs := updateFirst s.groups fromId (fun g => { g with files := rest ++ [file] })
          { s with groups := gs }
        else
          let gs1 := updateFirst s.groups fromId (fun g => { g with files := rest })
          let gs2 := updateFirst gs1 toId (fun g => { g with files := g.files ++ [file] })
          { s with groups :=
              if rest.isEmpty then gs2.filter (fun g => !(g.id == fromId)) else gs2 }

/-- Model of GroupingEngine.removeFileFromGroup (src/unnamed/part_001 lines
325-346).  Returns the new state and the boolean result. -/
def removeFileFromGroup (s : EngineState) (filePath groupId : String) :
    EngineState × Bool :=
  match findGroup s.groups groupId with
  | none => (s, false)
  | some g =>
    match removeFirstFile g.files filePath with
    | none => (s, false)
    | some (file, rest) =>
      let gs := updateFirst s.groups groupId (fun h => { h with files := rest })
      let gs := if rest.isEmpty then gs.filter (fun h => !(h.id == groupId)) else gs
      ({ groups := gs, ungroupedFiles := s.ungroupedFiles ++ [file] }, true)

/-- Model of GroupingEngine.addFileToGroup (src/unnamed/part_001 lines
355-373): the pool is searched first, the group second, and no mutation
happens unless both are found. -/
def addFileToGroup (s : EngineState) (filePath groupId : String) :
    EngineState × Bool :=
  match removeFirstFile s.ungroupedFiles filePath with
  | none => (s, false)
  | some (file, rest) =>
    match findGroup s.groups groupId with
    | none => (s, false)
    | some _ =>
      ({ groups := updateFirst s.groups groupId
           (fun h => { h with files := h.files ++ [file] }),
         ungroupedFiles := rest }, true)

/-- Model of GroupingEngine.createGroup (src/unnamed/part_001 lines
382-395): appends a fresh empty pending group. -/
def createGroup (s : EngineState) (name message : String) (now : Nat) :
    EngineState × CommitGroup :=
  let g : CommitGroup :=
    { id := generateGroupId s.groups.length now
      name := name
      message := message
      files := []
      reasoning := "Manually created group"
      status := .pending }
  ({ s with groups := s.groups ++ [g] }, g)

/-- Model of the merge loop of GroupingEngine.mergeGroups (src/unnamed/
part_001 lines 415-419): each source file is appended to the target unless
a file with the same path is already present (the target list grows as the
loop runs). -/
def mergeFiles (tfiles sfiles : List FileChange) : List FileChange :=
  sfiles.foldl
    (fun acc f => if acc.any (fun t => t.path == f.path) then acc else acc ++ [f])
    tfiles

/-- Model of GroupingEngine.mergeGroups (src/unnamed/part_001 lines
406-425). -/
def mergeGroups (s : EngineState) (sourceId targetId : String) :
    EngineState × Bool :=
  match findGroup s.groups sourceId with
  | none => (s, false)
  | some src =>
    match findGroup s.groups targetId with
    | none => (s, false)
    | some _ =>
      if sourceId == targetId then (s, false)
      else
        let gs := updateFirst s.groups targetId
          (fun g => { g with files := mergeFiles g.files src.files })
        ({ s with groups := gs.filter (fun g => !(g.id == sourceId)) }, true)

/-- Model of GroupingEngine.updateGroupMessage (src/unnamed/part_001 lines
433-440). -/
def updateGroupMessage (s : EngineState) (groupId message : String) : EngineState :=
  { s with groups := updateFirst s.groups groupId (fun g => { g with message := message }) }

/-- Model of GroupingEngine.discardGroup (src/unnamed/part_001 lines
456-459): drops every group with the given id, touching nothing else. -/
def discardGroup (s : EngineState) (groupId : String) : EngineState :=
  { s with groups := s.groups.filter (fun g => !(g.id == groupId)) }

/-- Model of GroupingEngine.clearGroups (src/unnamed/part_001 lines
445-449). -/
def clearGroups (_s : EngineState) : EngineState :=
  { groups := [], ungroupedFiles := [] }

/-- Number of occurrences of a path across one file list. -/
def filesCount (files : List FileChange) (p : String) : Nat :=
  files.countP (fun f => f.path == p)

/-- Number of occurrences of a path across all groups of a group list. -/
def groupsCount (gs : List CommitGroup) (p : String) : Nat :=
  (gs.map (fun g => filesCount g.files p)).sum

/-- Number of occurrences of a path across all groups and the pool: the
quantity the partition invariant speaks about. -/
def pathCount (s : EngineState) (p : String) : Nat :=
  groupsCount s.groups p + filesCount s.ungroupedFiles p

/-- Membership test of the streaming callback (src/unnamed/part_001 lines
98-103): a change belongs to a suggestion when its normalized path is in
the set of normalized suggestion paths. -/
def sugMatches (sug : Suggestion) (c : FileChange) : Bool :=
  (sug.files.map normalizePath).contains (normalizePath c.path)

/-- Files of the filtered change set claimed by one suggestion. -/
def resolveFiles (filesToAnalyze : List FileChange) (sug : Suggestion) : List FileChange :=
  filesToAnalyze.filter (fun c => sugMatches sug c)

/-- The CommitGroup built for one streamed suggestion (src/unnamed/part_001
lines 105-112). -/
def mkSuggestedGroup (filesToAnalyze : List FileChange) (now idx : Nat)
    (sug : Suggestion) : CommitGroup :=
  { id := generateGroupId idx now
    name := sug.name
    message := sug.message
    files := resolveFiles filesToAnalyze sug
    reasoning := sug.reasoning
    status := .pending }

/-- Groups accumulated by the streaming callback, in suggestion arrival
order, with increasing group indices. -/
def suggestedGroupsAux (filesToAnalyze : List FileChange) (now idx : Nat) :
    List Suggestion → List CommitGroup
  | [] => []
  | sug :: rest =>
    mkSuggestedGroup filesToAnalyze now idx sug ::
      suggestedGroupsAux filesToAnalyze now (idx + 1) rest

/-- Normalized paths of all files across the produced groups
(src/unnamed/part_001 lines 141-143). -/
def groupedPathList (gs : List CommitGroup) : List String :=
  (gs.map (fun g => g.files.map (fun f => normalizePath f.path))).flatten

/-- Files of the filtered set missed by every group (src/unnamed/part_001
lines 144-146). -/
def unassignedFiles (filesToAnalyze : List FileChange) (gs : List CommitGroup) :
    List FileChange :=
  filesToAnalyze.filter (fun f => !((groupedPathList gs).contains (normalizePath f.path)))

/-- The synthetic catch-all group (src/unnamed/part_001 lines 148-155). -/
def catchAllGroup (files : List FileChange) (idx now : Nat) : CommitGroup :=
  { id := generateGroupId idx now
    name := "other-changes"
    message := "chore: other changes"
    files := files
    reasoning := "Files not assigned to other groups by AI analysis"
    status := .pending }

/-- Model of the pure core of analyzeChanges (src/unnamed/part_001 lines
89-161) as a function of the filtered change set and the suggestions that
were streamed: one group per suggestion in arrival order, followed by the
catch-all group when some file is missed.  (The fallback branch at lines
120-138 builds the identical groups, so the function also models it.) -/
def analyzeCore (filesToAnalyze : List FileChange) (sugs : List Suggestion)
    (now : Nat) : List CommitGroup :=
  let gs := suggestedGroupsAux filesToAnalyze now 0 sugs
  let missed := unassignedFiles filesToAnalyze gs
  if missed.isEmpty then gs else gs ++ [catchAllGroup missed gs.length now]

/-- analyzeChanges (src/unnamed/part_001 lines 57-161) as a function of the
filtered change set and the streamed suggestions: the guard at lines 76-78
throws when the filtered set is empty; every later step of the run is
total, so otherwise the run returns the groups of analyzeCore. -/
def analyzeChanges (filesToAnalyze : List FileChange) (sugs : List Suggestion)
    (now : Nat) : Except String (List CommitGroup) :=
  if filesToAnalyze.isEmpty then Except.error "No changes to analyze"
  else Except.ok (analyzeCore filesToAnalyze sugs now)

/-- Result record of commitAllGroups (CommitAllResult in the grouping
types of src/unnamed/part_006). -/
structure CommitAllResult where
  success : Nat
  failed : Nat
  cancelled : Nat
deriving DecidableEq, Repr

/-- One commitGroup call (src/unnamed/part_001 lines 170-190) as issued by
the batch loop.  The outcome of the VCS stageAndCommit call is given by an
oracle indexed by the number of stageAndCommit calls made so far; on
success the group is removed from the list, on failure the found group's
status is set to error in place.  Returns the new state, whether the call
succeeded, and the updated call counter (a missing group throws before any
VCS call is made). -/
def commitGroupStep (s : EngineState) (oracle : Nat → Bool) (attempts : Nat)
    (groupId : String) : EngineState × Bool × Nat :=
  match findGroup s.groups groupId with
  | none => (s, false, attempts)
  | some _ =>
    if oracle attempts then
      ({ s with groups := s.groups.filter (fun g => !(g.id == groupId)) }, true, attempts + 1)
    else
      ({ s with groups := updateFirst s.groups groupId (fun g => { g with status := .error }) },
       false, attempts + 1)

/-- The per-group loop of commitAllGroups (src/unnamed/part_001 lines
241-255 and 260-274; both strategy branches run this identical loop).
`i` is the iteration index at which the cancellation token is polled; on
cancellation all remaining groups are tallied as cancelled and the loop
stops.  A failed commit is caught and counted, and the loop continues. -/
def commitLoop (oracle cancel : Nat → Bool) :
    List CommitGroup → EngineState → Nat → Nat → Nat → Nat →
      EngineState × CommitAllResult
  | [], s, _, _, succ, fail => (s, ⟨succ, fail, 0⟩)
  | g :: rest, s, i, attempts, succ, fail =>
    if cancel i then (s, ⟨succ, fail, rest.length + 1⟩)
    else
      match commitGroupStep s oracle attempts g.id with
      | (s', true, a') => commitLoop oracle cancel rest s' (i + 1) a' (succ + 1) fail
      | (s', false, a') => commitLoop oracle cancel rest s' (i + 1) a' succ (fail + 1)

/-- The groups selected for commit by commitAllGroups (src/unnamed/part_001
lines 215-218): the pending groups, optionally restricted to a caller
supplied id subset. -/
def groupsToCommit (s : EngineState) (groupIds : Option (List String)) :
    List CommitGroup :=
  let pending := s.groups.filter (fun g => g.status == GroupStatus.pending)
  match groupIds with
  | some ids => pending.filter (fun g => ids.contains g.id)
  | none => pending

/-- Model of commitAllGroups (src/unnamed/part_001 lines 202-278).
`strategy` is the splitify.preCommitStrategy configuration value and
`hookOk` tells whether the single pre-commit hook run of the run-once
strategy succeeds; a thrown error is modelled by Except.error. -/
def commitAllGroups (s : EngineState) (strategy : String) (hookOk : Bool)
    (groupIds : Option (List String)) (oracle cancel : Nat → Bool) :
    Except String (EngineState × CommitAllResult) :=
  let toCommit := groupsToCommit s groupIds
  if strategy == "run-once" then
    if hookOk then Except.ok (commitLoop oracle cancel toCommit s 0 0 0 0)
    else Except.error "Pre-commit hook failed"
  else Except.ok (commitLoop oracle cancel toCommit s 0 0 0 0)

/-- Characters skipped between array elements by extractCompleteGroups
(src/unnamed/part_004 line 203): whitespace and commas. -/
def isSkip (c : Char) : Bool :=
  isJsWs c || c = ','

/-- Scanner state of the object-extraction loop of extractCompleteGroups:
either between objects, or inside an object with the brace depth, the
in-string flag, the escape-pending flag and the accumulated characters. -/
inductive ScanState where
  | between
  | inObj (depth : Nat) (inString escaped : Bool) (acc : List Char)

/-- The character loop of extractCompleteGroups (src/unnamed/part_004 lines
201-256): skip whitespace and commas, require an opening brace, then scan
with string/escape awareness until the depth returns to zero; an object cut
off by the end of the buffer is not emitted. -/
def scanLoop : List Char → ScanState → List (List Char)
  | [], _ => []
  | c :: rest, .between =>
    if isSkip c then scanLoop rest .between
    else if c = '\x7b' then scanLoop rest (.inObj 1 false false ['\x7b'])
    else []
  | c :: rest, .inObj depth inS esc acc =>
    if esc then scanLoop rest (.inObj depth inS false (c :: acc))
    else if c = '\\' then scanLoop rest (.inObj depth inS true (c :: acc))
    else if c = '"' then scanLoop rest (.inObj depth (!inS) false (c :: acc))
    else if inS then scanLoop rest (.inObj depth inS false (c :: acc))
    else if c = '\x7b' then scanLoop rest (.inObj (depth + 1) inS false (c :: acc))
    else if c = '\x7d' then
      if depth = 1 then (c :: acc).reverse :: scanLoop rest .between
      else scanLoop rest (.inObj (depth - 1) inS false (c :: acc))
    else scanLoop rest (.inObj depth inS false (c :: acc))

/-- Literal part of the groups-array marker pattern. -/
def markerLit : List Char := ['"', 'g', 'r', 'o', 'u', 'p', 's', '"']

/-- After the literal: optional whitespace, a colon, optional whitespace and
an opening bracket; returns the remainder after the bracket. -/
def matchAfterLit (l : List Char) : Option (List Char) :=
  match l.dropWhile isJsWs with
  | c1 :: l2 =>
    if c1 = ':' then
      match l2.dropWhile isJsWs with
      | c2 :: l3 => if c2 = '[' then some l3 else none
      | [] => none
    else none
  | [] => none

/-- Attempt of the marker pattern at the start of the list. -/
def matchMarker (l : List Char) : Option (List Char) :=
  if markerLit.isPrefixOf l then matchAfterLit (l.drop 8) else none

/-- Leftmost match of the marker pattern (the buffer.match call of
src/unnamed/part_004 line 194); returns the remainder after the match. -/
def findMarker : List Char → Option (List Char)
  | [] => none
  | c :: rest =>
    match matchMarker (c :: rest) with
    | some rem => some rem
    | none => findMarker rest

/-- Model of AIService.extractCompleteGroups (src/unnamed/part_004 lines
190-259). -/
def extractCompleteGroups (buffer : String) : List String :=
  match findMarker buffer.data with
  | none => []
  | some rem => (scanLoop rem .between).map String.mk

/-- Model of the JSON value domain of the host runtime.  Numbers keep their
source lexeme (no floating point is modelled); object fields keep insertion
order and may repeat, with field access resolving to the last occurrence as
JSON.parse does. -/
inductive Json where
  | null
  | bool (b : Bool)
  | num (lexeme : String)
  | str (s : String)
  | arr (elems : List Json)
  | obj (fields : List (String × Json))

/-- Whitespace accepted by strict JSON parsing (narrower than the JS regex
class). -/
def isJsonWs (c : Char) : Bool :=
  c = ' ' || c = '\t' || c = '\n' || c = '\r'

/-- Value of a hexadecimal digit. -/
def hexVal (c : Char) : Option Nat :=
  if '0' ≤ c ∧ c ≤ '9' then some (c.toNat - '0'.toNat)
  else if 'a' ≤ c ∧ c ≤ 'f' then some (c.toNat - 'a'.toNat + 10)
  else if 'A' ≤ c ∧ c ≤ 'F' then some (c.toNat - 'A'.toNat + 10)
  else none

/-- Body of a JSON string after the opening quote: returns the decoded
characters and the remainder after the closing quote. -/
def jsonStringRest : List Char → Option (List Char × List Char)
  | [] => none
  | '"' :: rest => some ([], rest)
  | '\\' :: e :: rest =>
    match e with
    | '"' => (jsonStringRest rest).map (fun pr => ('"' :: pr.1, pr.2))
    | '\\' => (jsonStringRest rest).map (fun pr => ('\\' :: pr.1, pr.2))
    | '/' => (jsonStringRest rest).map (fun pr => ('/' :: pr.1, pr.2))
    | 'b' => (jsonStringRest rest).map (fun pr => ('\x08' :: pr.1, pr.2))
    | 'f' => (jsonStringRest rest).map (fun pr => ('\x0c' :: pr.1, pr.2))
    | 'n' => (jsonStringRest rest).map (fun pr => ('\n' :: pr.1, pr.2))
    | 'r' => (jsonStringRest rest).map (fun pr => ('\r' :: pr.1, pr.2))
    | 't' => (jsonStringRest rest).map (fun pr => ('\t' :: pr.1, pr.2))
    | 'u' =>
      match rest with
      | h1 :: h2 :: h3 :: h4 :: rest' =>
        match hexVal h1, hexVal h2, hexVal h3, hexVal h4 with
        | some a, some b, some c, some d =>
          (jsonStringRest rest').map
            (fun pr => (Char.ofNat (((a * 16 + b) * 16 + c) * 16 + d) :: pr.1, pr.2))
        | _, _, _, _ => none
      | _ => none
    | _ => none
  | c :: rest =>
    if c.toNat < 32 then none
    else (jsonStringRest rest).map (fun pr => (c :: pr.1, pr.2))

/-- Lexeme of a JSON number at the start of the list, with the remainder. -/
def jsonNumRest (l : List Char) : Option (List Char × List Char) :=
  let (sign, l1) := match l with
    | '-' :: r => (['-'], r)
    | _ => (([] : List Char), l)
  match l1 with
  | c :: r =>
    if ¬ c.isDigit then none
    else if c = '0' then some (sign ++ [c], r)
    else some (sign ++ [c] ++ r.takeWhile Char.isDigit, r.dropWhile Char.isDigit)
  | [] => none

/-- Fractional and exponent parts of a JSON number following the integer
part; extends the lexeme. -/
def jsonNumTail (lexeme : List Char) (l : List Char) : Option (List Char × List Char) :=
  let step1 : Option (List Char × List Char) :=
    match l with
    | '.' :: r =>
      let ds := r.takeWhile Char.isDigit
      if ds.isEmpty then none else some (lexeme ++ '.' :: ds, r.dropWhile Char.isDigit)
    | _ => some (lexeme, l)
  match step1 with
  | none => none
  | some (lex2, l2) =>
    match l2 with
    | c :: r =>
      if c = 'e' ∨ c = 'E' then
        let (sgn, r2) := match r with
          | '+' :: rr => (['+'], rr)
          | '-' :: rr => (['-'], rr)
          | _ => (([] : List Char), r)
        let ds := r2.takeWhile Char.isDigit
        if ds.isEmpty then none
        else some (lex2 ++ c :: sgn ++ ds, r2.dropWhile Char.isDigit)
      else some (lex2, l2)
    | [] => some (lex2, l2)

mutual

/-- Strict JSON value parser modelling JSON.parse; `fuel` bounds the
recursion depth and is supplied generously by `jsonParse`. -/
def parseValue : Nat → List Char → Option (Json × List Char)
  | 0, _ => none
  | fuel + 1, l =>
    match l.dropWhile isJsonWs with
    | 'n' :: 'u' :: 'l' :: 'l' :: rest => some (.null, rest)
    | 't' :: 'r' :: 'u' :: 'e' :: rest => some (.bool true, rest)
    | 'f' :: 'a' :: 'l' :: 's' :: 'e' :: rest => some (.bool false, rest)
    | '"' :: rest =>
      (jsonStringRest rest).map (fun pr => (.str (String.mk pr.1), pr.2))
    | '[' :: rest => parseArrayRest fuel rest
    | '\x7b' :: rest => parseObjRest fuel rest
    | l' =>
      match jsonNumRest l' with
      | some (lex, r) =>
        (jsonNumTail lex r).map (fun pr => (.num (String.mk pr.1), pr.2))
      | none => none

/-- Array body after the opening bracket. -/
def parseArrayRest : Nat → List Char → Option (Json × List Char)
  | 0, _ => none
  | fuel + 1, l =>
    match l.dropWhile isJsonWs with
    | ']' :: rest => some (.arr [], rest)
    | l' =>
      match parseValue fuel l' with
      | some (v, r) => parseArrayMore fuel [v] r
      | none => none

/-- Remaining array elements: a comma and a value, or the closing
bracket. -/
def parseArrayMore : Nat → List Json → List Char → Option (Json × List Char)
  | 0, _, _ => none
  | fuel + 1, acc, l =>
    match l.dropWhile isJsonWs with
    | ']' :: rest => some (.arr acc.reverse, rest)
    | ',' :: rest =>
      match parseValue fuel rest with
      | some (v, r) => parseArrayMore fuel (v :: acc) r
      | none => none
    | _ => none

/-- Object body after the opening brace. -/
def parseObjRest : Nat → List Char → Option (Json × List Char)
  | 0, _ => none
  | fuel + 1, l =>
    match l.dropWhile isJsonWs with
    | '\x7d' :: rest => some (.obj [], rest)
    | l' =>
      match parseMember fuel l' with
      | some (kv, r) => parseObjMore fuel [kv] r
      | none => none

/-- One key-value member: a string key, a colon and a value. -/
def parseMember : Nat → List Char → Option ((String × Json) × List Char)
  | 0, _ => none
  | fuel + 1, l =>
    match l.dropWhile isJsonWs with
    | '"' :: rest =>
      match jsonStringRest rest with
      | some (key, r) =>
        match r.dropWhile isJsonWs with
        | ':' :: r2 =>
          match parseValue fuel r2 with
          | some (v, r3) => some ((String.mk key, v), r3)
          | none => none
        | _ => none
      | none => none
    | _ => none

/-- Remaining object members: a comma and a member, or the closing
brace. -/
def parseObjMore : Nat → List (String × Json) → List Char → Option (Json × List Char)
  | 0, _, _ => none
  | fuel + 1, acc, l =>
    match l.dropWhile isJsonWs with
    | '\x7d' :: rest => some (.obj acc.reverse, rest)
    | ',' :: rest =>
      match parseMember fuel rest with
      | some (kv, r) => parseObjMore fuel (kv :: acc) r
      | none => none
    | _ => none

end

/-- Model of JSON.parse: parse one value and require only whitespace after
it.  The fuel is an over-approximation of the recursion the input can
need. -/
def jsonParse (s : String) : Option Json :=
  match parseValue (2 * s.length + 16) s.data with
  | some (v, rest) => if (rest.dropWhile isJsonWs).isEmpty then some v else none
  | none => none

/-- Model of JS property access on a parsed value: only objects have
fields, and for repeated keys JSON.parse keeps the last occurrence. -/
def getField (j : Json) (key : String) : Option Json :=
  match j with
  | .obj fields => (fields.reverse.find? (fun kv => kv.1 == key)).map (fun kv => kv.2)
  | _ => none

/-- Whether a JSON number lexeme denotes zero: all mantissa characters are
signs, dots or zero digits. -/
def numLexemeIsZero (s : String) : Bool :=
  (s.data.takeWhile (fun c => !(c == 'e') && !(c == 'E'))).all
    (fun c => c = '0' || c = '.' || c = '-' || c = '+')

/-- JS truthiness of a parsed JSON value. -/
def jsTruthy (j : Json) : Bool :=
  match j with
  | .null => false
  | .bool b => b
  | .num s => !(numLexemeIsZero s)
  | .str s => !(s == "")
  | .arr _ => true
  | .obj _ => true

/-- Truthiness of a property access, with a missing property being
undefined and hence falsy. -/
def truthyField (j : Json) (key : String) : Bool :=
  match getField j key with
  | some v => jsTruthy v
  | none => false

/-- Validation applied to each streamed suggestion object
(src/unnamed/part_004 line 161): truthy name, truthy message and an array
of files. -/
def isValidSug (j : Json) : Bool :=
  truthyField j "name" && truthyField j "message" &&
    (match getField j "files" with
     | some (.arr _) => true
     | _ => false)

/-- The emission loop of analyzeAndGroupChangesStreaming (src/unnamed/
part_004 lines 156-171) over the extracted object strings from index
`emittedCount` on: each string is parsed; a valid parse is pushed and
counted, anything else is skipped silently. -/
def emitList : List String → Nat → List Json → Nat × List Json
  | [], ec, gs => (ec, gs)
  | sj :: rest, ec, gs =>
    match jsonParse sj with
    | some p =>
      if isValidSug p then emitList rest (ec + 1) (gs ++ [p])
      else emitList rest ec gs
    | none => emitList rest ec gs

/-- Processing of one received chunk (src/unnamed/part_004 lines 150-171):
append it to the buffer, re-extract the complete objects, and run the
emission loop from the current emitted counter. -/
def processChunk (buffer : String) (ec : Nat) (gs : List Json) (chunk : String) :
    String × Nat × List Json :=
  let b := buffer ++ chunk
  let jsons := extractCompleteGroups b
  let r := emitList (jsons.drop ec) ec gs
  (b, r.1, r.2)

/-- The chunk loop of analyzeAndGroupChangesStreaming (src/unnamed/part_004
lines 145-172); the cancellation token is polled once per chunk before the
chunk is processed. -/
def runChunks (cancel : Nat → Bool) :
    List String → Nat → String → Nat → List Json → String × Nat × List Json
  | [], _, b, ec, gs => (b, ec, gs)
  | ch :: rest, i, b, ec, gs =>
    if cancel i then (b, ec, gs)
    else
      let st := processChunk b ec gs ch
      runChunks cancel rest (i + 1) st.1 st.2.1 st.2.2

/-- Index of the first occurrence of a pattern in a character list. -/
def indexOfSub (pat : List Char) : List Char → Option Nat
  | [] => if pat.isEmpty then some 0 else none
  | c :: rest =>
    if pat.isPrefixOf (c :: rest) then some 0
    else (indexOfSub pat rest).map (fun n => n + 1)

/-- Capture group of the markdown-fence pattern of parseResponse
(src/unnamed/part_004 line 271): the text between the first json fence
opening and the next closing fence, with the surrounding whitespace
excluded by the lazy capture. -/
def fenceBody (l : List Char) : Option (List Char) :=
  match indexOfSub ("```json".data) l with
  | none => none
  | some i =>
    let rest2 := (l.drop (i + 7)).dropWhile isJsWs
    match indexOfSub ("```".data) rest2 with
    | none => none
    | some m => some (((rest2.take m).reverse.dropWhile isJsWs).reverse)

/-- Model of AIService.parseResponse (src/unnamed/part_004 lines 268-295):
extract the fenced JSON if present, parse the whole text, and require a
groups array, distinguishing invalid JSON from a missing groups field. -/
def parseResponse (response : String) : Except String (List Json) :=
  let jsonStr : List Char :=
    match fenceBody response.data with
    | some body => body
    | none => response.data
  match jsonParse (String.mk (trimChars jsonStr)) with
  | none => Except.error "Failed to parse AI grouping suggestions: Invalid JSON format"
  | some parsed =>
    match getField parsed "groups" with
    | some (Json.arr elems) => Except.ok elems
    | _ => Except.error "Invalid response structure: missing groups array"

/-- Final result of analyzeAndGroupChangesStreaming (src/unnamed/part_004
lines 141-180): the emitted groups, or a full parse of the buffered text
when streaming emitted nothing. -/
def analyzeStreamingResult (cancel : Nat → Bool) (chunks : List String) :
    Except String (List Json) :=
  let r := runChunks cancel chunks 0 "" 0 []
  if r.2.2.isEmpty then parseResponse r.1 else Except.ok r.2.2

theorem dropWhile_dropWhile (p : Char → Bool) (l : List Char) :
    (l.dropWhile p).dropWhile p = l.dropWhile p := by
  induction l with
  | nil => rfl
  | cons c t ih =>
    by_cases h : p c
    · simpa [List.dropWhile_cons, h] using ih
    · simp [List.dropWhile_cons, h]

theorem not_of_dropWhile_cons (p : Char → Bool) (l t : List Char) (c : Char)
    (h : l.dropWhile p = c :: t) : p c = false := by
  induction l with
  | nil => simp at h
  | cons a l ih =>
    rw [List.dropWhile_cons] at h
    by_cases ha : p a
    · rw [if_pos ha] at h
      exact ih h
    · rw [if_neg ha] at h
      cases h
      simpa using ha

theorem dropWhile_eq_self_of_prefix (p : Char → Bool) (x l : List Char)
    (h : x <+: l.dropWhile p) : x.dropWhile p = x := by
  cases x with
  | nil => rfl
  | cons c t =>
    obtain ⟨t', ht⟩ := h
    have hc : p c = false := not_of_dropWhile_cons p l (t ++ t') c (by rw [← ht]; rfl)
    simp [List.dropWhile_cons, hc]

theorem dropWhile_trimChars (l : List Char) :
    (trimChars l).dropWhile isJsWs = trimChars l := by
  obtain ⟨t, ht⟩ :=
    List.dropWhile_suffix (l := (l.dropWhile isJsWs).reverse) (p := isJsWs)
  refine dropWhile_eq_self_of_prefix isJsWs _ l ⟨t.reverse, ?_⟩
  have : l.dropWhile isJsWs = ((l.dropWhile isJsWs).reverse).reverse := by
    rw [List.reverse_reverse]
  rw [this, ← ht]
  simp [trimChars]

theorem trimChars_idem (l : List Char) : trimChars (trimChars l) = trimChars l := by
  have h1 : (trimChars l).dropWhile isJsWs = trimChars l := dropWhile_trimChars l
  have h2 : (trimChars l).reverse.dropWhile isJsWs = (trimChars l).reverse := by
    have hrev : (trimChars l).reverse = ((l.dropWhile isJsWs).reverse).dropWhile isJsWs := by
      rw [trimChars, List.reverse_reverse]
    rw [hrev, dropWhile_dropWhile]
  show (((trimChars l).dropWhile isJsWs).reverse.dropWhile isJsWs).reverse = trimChars l
  rw [h1, h2, List.reverse_reverse]

theorem not_bs_mem_replaceBackslashes (l : List Char) : '\\' ∉ replaceBackslashes l := by
  intro h
  rw [replaceBackslashes, List.mem_map] at h
  obtain ⟨c, _, hc⟩ := h
  by_cases hb : c = '\\'
  · rw [if_pos hb] at hc
    exact absurd hc (by decide)
  · rw [if_neg hb] at hc
    exact hb hc

theorem replaceBackslashes_eq_self (l : List Char) (h : '\\' ∉ l) :
    replaceBackslashes l = l := by
  conv_rhs => rw [← List.map_id l]
  apply List.map_congr_left
  intro c hc
  have hne : c ≠ '\\' := fun e => h (e ▸ hc)
  simp [hne]

theorem mem_of_mem_stripDotSlash (c : Char) (l : List Char)
    (h : c ∈ stripDotSlash l) : c ∈ l := by
  rw [stripDotSlash] at h
  split at h
  · exact List.mem_of_mem_drop h
  · exact h

theorem mem_of_mem_trimChars (c : Char) (l : List Char)
    (h : c ∈ trimChars l) : c ∈ l := by
  rw [trimChars] at h
  rw [List.mem_reverse] at h
  have h2 := (List.dropWhile_sublist (l := (l.dropWhile isJsWs).reverse) isJsWs).mem h
  rw [List.mem_reverse] at h2
  exact (List.dropWhile_sublist (l := l) isJsWs).mem h2

theorem not_bs_mem_normalizePath (p : String) : '\\' ∉ (normalizePath p).data := by
  intro h
  exact not_bs_mem_replaceBackslashes p.data
    (mem_of_mem_stripDotSlash _ _ (mem_of_mem_trimChars _ _ h))

/-- C4 counterexample: normalizePath is not idempotent.  The single leading
"./" strip exposes a second "./" on "././a", so a second application
changes the result again. -/
theorem C4_counterexample :
    normalizePath (normalizePath "././a") ≠ normalizePath "././a" := by decide

/-- C4 (amended): normalizePath is a total function on strings; it is
idempotent on every string whose normalization does not itself begin with
"./" (on other strings, such as "././a", a second application strips
again); and matching is normalization-invariant: the suggestion paths
"./src/a.ts", "src\a.ts" and "src/a.ts  " all normalize to the same key as
the canonical path "src/a.ts". -/
theorem C4_normalizePath_amended (p : String)
    (h : (normalizePath p).data.take 2 ≠ ['.', '/']) :
    normalizePath (normalizePath p) = normalizePath p ∧
    normalizePath "./src/a.ts" = normalizePath "src/a.ts" ∧
    normalizePath "src\\a.ts" = normalizePath "src/a.ts" ∧
    normalizePath "src/a.ts  " = normalizePath "src/a.ts" := by
  refine ⟨?_, by decide, by decide, by decide⟩
  have h1 : replaceBackslashes (normalizePath p).data = (normalizePath p).data :=
    replaceBackslashes_eq_self _ (not_bs_mem_normalizePath p)
  have h2 : stripDotSlash (normalizePath p).data = (normalizePath p).data := by
    rw [stripDotSlash, if_neg h]
  have hq : (normalizePath p).data = trimChars (stripDotSlash (replaceBackslashes p.data)) := rfl
  show String.mk (trimChars (stripDotSlash (replaceBackslashes (normalizePath p).data)))
      = normalizePath p
  rw [h1, h2, hq, trimChars_idem]
  rfl

/-- Witness for C4_normalizePath_amended at the concrete path
"src/a.ts". -/
theorem C4_normalizePath_amended_witness :
    (normalizePath "src/a.ts").data.take 2 ≠ ['.', '/'] ∧
    (normalizePath (normalizePath "src/a.ts") = normalizePath "src/a.ts" ∧
     normalizePath "./src/a.ts" = normalizePath "src/a.ts" ∧
     normalizePath "src\\a.ts" = normalizePath "src/a.ts" ∧
     normalizePath "src/a.ts  " = normalizePath "src/a.ts") :=
  ⟨by decide, C4_normalizePath_amended "src/a.ts" (by decide)⟩

theorem groupsCount_nil (p : String) : groupsCount [] p = 0 := rfl

theorem groupsCount_cons (g : CommitGroup) (t : List CommitGroup) (p : String) :
    groupsCount (g :: t) p = filesCount g.files p + groupsCount t p := by
  simp [groupsCount]

theorem groupsCount_append (a b : List CommitGroup) (p : String) :
    groupsCount (a ++ b) p = groupsCount a p + groupsCount b p := by
  induction a with
  | nil => simp [groupsCount_nil]
  | cons h t ih => rw [List.cons_append, groupsCount_cons, groupsCount_cons, ih]; omega

theorem groupsCount_filter_le (t : List CommitGroup) (q : CommitGroup → Bool) (p : String) :
    groupsCount (t.filter q) p ≤ groupsCount t p := by
  induction t with
  | nil => simp [groupsCount_nil]
  | cons h t ih =>
    rw [List.filter_cons, groupsCount_cons]
    by_cases hq : q h = true
    · rw [if_pos hq, groupsCount_cons]
      omega
    · rw [if_neg hq]
      omega

theorem groupsCount_filter_add_le (gs : List CommitGroup) (gid p : String)
    (g : CommitGroup) (hg : findGroup gs gid = some g) :
    groupsCount (gs.filter (fun h => !(h.id == gid))) p + filesCount g.files p ≤
      groupsCount gs p := by
  induction gs with
  | nil => simp [findGroup] at hg
  | cons h t ih =>
    rw [findGroup, List.find?_cons] at hg
    rw [List.filter_cons, groupsCount_cons]
    by_cases hid : (h.id == gid) = true
    · simp only [hid] at hg
      cases hg
      have hsub := groupsCount_filter_le t (fun x => !(x.id == gid)) p
      rw [hid, Bool.not_true, if_neg (by simp)]
      omega
    · rw [Bool.not_eq_true] at hid
      simp only [hid] at hg
      have := ih hg
      rw [hid, Bool.not_false, if_pos rfl, groupsCount_cons]
      omega

/-- C10: discardGroup never modifies the ungrouped pool: for every group id
the pool is identical before and after the call; and when the id names an
existing group in a state where a path of that group's files satisfies the
partition property, that path is afterwards in no group and not in the
ungrouped pool. -/
theorem C10_discardGroup_frame (s : EngineState) (gid : String) :
    (discardGroup s gid).ungroupedFiles = s.ungroupedFiles ∧
    (∀ g, findGroup s.groups gid = some g →
      ∀ f ∈ g.files, pathCount s f.path = 1 →
        groupsCount (discardGroup s gid).groups f.path = 0 ∧
        filesCount (discardGroup s gid).ungroupedFiles f.path = 0) := by
  refine ⟨rfl, ?_⟩
  intro g hg f hf hcount
  have hle := groupsCount_filter_add_le s.groups gid f.path g hg
  have hpos : 0 < filesCount g.files f.path := by
    rw [filesCount, List.countP_pos_iff]
    exact ⟨f, hf, by simp⟩
  rw [pathCount] at hcount
  constructor
  · show groupsCount (s.groups.filter (fun h => !(h.id == gid))) f.path = 0
    omega
  · show filesCount s.ungroupedFiles f.path = 0
    omega

/-- Sample file change used by concrete witnesses. -/
def mkFC (p : String) : FileChange :=
  { path := p, status := .modified, diff := "", additions := 0, deletions := 0,
    originalPath := none }

/-- Sample pending group holding src/a.ts. -/
def gA : CommitGroup :=
  { id := "gA", name := "a", message := "feat: a", files := [mkFC "src/a.ts"],
    reasoning := "A", status := .pending }

/-- Sample pending group holding src/b.ts. -/
def gB : CommitGroup :=
  { id := "gB", name := "b", message := "feat: b", files := [mkFC "src/b.ts"],
    reasoning := "B", status := .pending }

/-- Sample pending group holding src/c.ts. -/
def gC : CommitGroup :=
  { id := "gC", name := "c", message := "feat: c", files := [mkFC "src/c.ts"],
    reasoning := "C", status := .pending }

/-- Witness for C10_discardGroup_frame: discarding gA from a state with one
pooled file leaves the pool identical and removes src/a.ts from the
partition. -/
theorem C10_discardGroup_frame_witness :
    (discardGroup ⟨[gA], [mkFC "x.ts"]⟩ "gA").ungroupedFiles =
        (⟨[gA], [mkFC "x.ts"]⟩ : EngineState).ungroupedFiles ∧
    (groupsCount (discardGroup ⟨[gA], [mkFC "x.ts"]⟩ "gA").groups (mkFC "src/a.ts").path = 0 ∧
     filesCount (discardGroup ⟨[gA], [mkFC "x.ts"]⟩ "gA").ungroupedFiles (mkFC "src/a.ts").path = 0) :=
  ⟨(C10_discardGroup_frame ⟨[gA], [mkFC "x.ts"]⟩ "gA").1,
   (C10_discardGroup_frame ⟨[gA], [mkFC "x.ts"]⟩ "gA").2 gA (by decide)
     (mkFC "src/a.ts") (by decide) (by decide)⟩

/-- C8: no empty groups survive: a moveFileToGroup call between distinct
groups that takes the last file out of the source group leaves no group
with the source id in the list; a removeFileFromGroup call that removes a
group's last file leaves no group with that id; the only empty group that
may remain is the one freshly appended by createGroup, which intentionally
starts with no files. -/
theorem C8_no_empty_groups (s : EngineState) (fromId toId gid p : String) :
    (∀ fromG, findGroup s.groups fromId = some fromG →
       (findGroup s.groups toId).isSome → fromId ≠ toId →
       (∃ f, fromG.files = [f] ∧ f.path = p) →
       ∀ g ∈ (moveFileToGroup s p fromId toId).groups, g.id ≠ fromId) ∧
    (∀ g0, findGroup s.groups gid = some g0 →
       (∃ f, g0.files = [f] ∧ f.path = p) →
       ∀ g ∈ (removeFileFromGroup s p gid).1.groups, g.id ≠ gid) ∧
    (∀ nm msg now, (createGroup s nm msg now).2.files = [] ∧
       (createGroup s nm msg now).1.groups.getLast? = some (createGroup s nm msg now).2) := by
  refine ⟨?_, ?_, ?_⟩
  · intro fromG hFrom hTo hne hlast g hgmem
    obtain ⟨toG, hToEq⟩ := Option.isSome_iff_exists.mp hTo
    obtain ⟨f, hfiles, hpath⟩ := hlast
    have hrem : removeFirstFile fromG.files p = some (f, []) := by
      rw [hfiles, removeFirstFile, if_pos (by simp [hpath])]
    have hbeq : (fromId == toId) = false := beq_eq_false_iff_ne.mpr hne
    simp only [moveFileToGroup, hFrom, hToEq, hrem, hbeq, Bool.false_eq_true, if_false,
      List.isEmpty_nil, if_true] at hgmem
    have := (List.mem_filter.mp hgmem).2
    simpa using this
  · intro g0 hg0 hlast g hgmem
    obtain ⟨f, hfiles, hpath⟩ := hlast
    have hrem : removeFirstFile g0.files p = some (f, []) := by
      rw [hfiles, removeFirstFile, if_pos (by simp [hpath])]
    simp only [removeFileFromGroup, hg0, hrem, List.isEmpty_nil, if_true] at hgmem
    have := (List.mem_filter.mp hgmem).2
    simpa using this
  · intro nm msg now
    exact ⟨rfl, List.getLast?_concat _⟩

/-- Witness for C8_no_empty_groups: moving the only file of gA into gB and
removing the only file of gB both delete the emptied group; createGroup
appends an empty group. -/
theorem C8_no_empty_groups_witness :
    (∀ g ∈ (moveFileToGroup ⟨[gA, gB], []⟩ "src/a.ts" "gA" "gB").groups, g.id ≠ "gA") ∧
    (∀ g ∈ (removeFileFromGroup ⟨[gA, gB], []⟩ "src/b.ts" "gB").1.groups, g.id ≠ "gB") ∧
    (createGroup ⟨[gA, gB], []⟩ "n" "m" 7).2.files = [] :=
  ⟨(C8_no_empty_groups ⟨[gA, gB], []⟩ "gA" "gB" "gB" "src/a.ts").1 gA (by decide)
     (by decide) (by decide) ⟨mkFC "src/a.ts", by decide, by decide⟩,
   (C8_no_empty_groups ⟨[gA, gB], []⟩ "gA" "gB" "gB" "src/b.ts").2.1 gB (by decide)
     ⟨mkFC "src/b.ts", by decide, by decide⟩,
   ((C8_no_empty_groups ⟨[gA, gB], []⟩ "gA" "gB" "gB" "src/b.ts").2.2 "n" "m" 7).1⟩

/-- Files of the filtered set resolved by at least one suggestion. -/
def assignedFiles (files : List FileChange) (sugs : List Suggestion) : List FileChange :=
  files.filter (fun c => sugs.any (fun s => sugMatches s c))

/-- Total number of files across a list of groups. -/
def totalFiles (gs : List CommitGroup) : Nat :=
  (gs.map (fun g => g.files.length)).sum

/-- First sample suggestion claiming src/a.ts. -/
def sgDup1 : Suggestion :=
  { name := "g1", message := "m1", files := ["src/a.ts"], reasoning := "r1" }

/-- Second sample suggestion also claiming src/a.ts. -/
def sgDup2 : Suggestion :=
  { name := "g2", message := "m2", files := ["src/a.ts"], reasoning := "r2" }

theorem analyzeCore_shape (files : List FileChange) (sugs : List Suggestion) (now : Nat) :
    ∃ tail, analyzeCore files sugs now = suggestedGroupsAux files now 0 sugs ++ tail := by
  simp only [analyzeCore]
  split
  · exact ⟨[], (List.append_nil _).symm⟩
  · exact ⟨[catchAllGroup _ _ _], rfl⟩

theorem suggestedGroupsAux_length (files : List FileChange) (sugs : List Suggestion)
    (now idx : Nat) :
    (suggestedGroupsAux files now idx sugs).length = sugs.length := by
  induction sugs generalizing idx with
  | nil => rfl
  | cons s rest ih =>
    rw [suggestedGroupsAux, List.length_cons, ih (idx + 1), List.length_cons]

theorem suggestedGroupsAux_append (files : List FileChange) (now : Nat)
    (xs ys : List Suggestion) : ∀ idx,
    suggestedGroupsAux files now idx (xs ++ ys) =
      suggestedGroupsAux files now idx xs ++
        suggestedGroupsAux files now (idx + xs.length) ys := by
  induction xs with
  | nil =>
    intro idx
    simp [suggestedGroupsAux]
  | cons s rest ih =>
    intro idx
    have h1 : suggestedGroupsAux files now idx ((s :: rest) ++ ys) =
        mkSuggestedGroup files now idx s ::
          suggestedGroupsAux files now (idx + 1) (rest ++ ys) := rfl
    have h2 : suggestedGroupsAux files now idx (s :: rest) =
        mkSuggestedGroup files now idx s ::
          suggestedGroupsAux files now (idx + 1) rest := rfl
    rw [h1, h2, ih (idx + 1), List.cons_append, List.length_cons]
    have harith : idx + 1 + rest.length = idx + (rest.length + 1) := by omega
    rw [harith]

/-- C2 counterexample: with two suggestions both listing src/a.ts, the
analysis run succeeds (no error is raised) and the shared path lands in
the files of BOTH produced groups, refuting the claimed first-wins
resolution under which the later group would not get the file. -/
theorem C2_counterexample :
    ∃ gs, analyzeChanges [mkFC "src/a.ts"] [sgDup1, sgDup2] 0 = Except.ok gs ∧
      gs.map (fun g => g.files.map (fun f => f.path)) = [["src/a.ts"], ["src/a.ts"]] :=
  ⟨analyzeCore [mkFC "src/a.ts"] [sgDup1, sgDup2] 0, rfl, by decide⟩

/-- C2 (amended): during analyzeChanges, when two AI-suggested groups —
at any two positions of the suggestion arrival order — list the same
file path, BOTH groups receive the matching file and no error is raised:
the run returns ok, the two groups appear exactly at their suggestions'
arrival positions, and the shared file is in the files of each. -/
theorem C2_duplicate_suggestion_amended
    (files : List FileChange) (pre mid post : List Suggestion) (s1 s2 : Suggestion)
    (now : Nat) (f : FileChange) (hf : f ∈ files)
    (h1 : sugMatches s1 f = true) (h2 : sugMatches s2 f = true) :
    ∃ gpre g1 gmid g2 grest,
      analyzeChanges files (pre ++ s1 :: mid ++ s2 :: post) now =
        Except.ok (gpre ++ g1 :: gmid ++ g2 :: grest) ∧
      gpre.length = pre.length ∧ gmid.length = mid.length ∧
      f ∈ g1.files ∧ f ∈ g2.files := by
  have hne : ¬ files.isEmpty = true := by
    rw [List.isEmpty_iff]
    intro hcon
    rw [hcon] at hf
    cases hf
  obtain ⟨tail, htail⟩ := analyzeCore_shape files ((pre ++ s1 :: mid) ++ s2 :: post) now
  have e1 : suggestedGroupsAux files now 0 ((pre ++ s1 :: mid) ++ s2 :: post) =
      suggestedGroupsAux files now 0 (pre ++ s1 :: mid) ++
        suggestedGroupsAux files now (0 + (pre ++ s1 :: mid).length) (s2 :: post) :=
    suggestedGroupsAux_append files now (pre ++ s1 :: mid) (s2 :: post) 0
  have e2 : suggestedGroupsAux files now 0 (pre ++ s1 :: mid) =
      suggestedGroupsAux files now 0 pre ++
        suggestedGroupsAux files now (0 + pre.length) (s1 :: mid) :=
    suggestedGroupsAux_append files now pre (s1 :: mid) 0
  have e3 : suggestedGroupsAux files now (0 + pre.length) (s1 :: mid) =
      mkSuggestedGroup files now (0 + pre.length) s1 ::
        suggestedGroupsAux files now (0 + pre.length + 1) mid := rfl
  have e4 : suggestedGroupsAux files now (0 + (pre ++ s1 :: mid).length) (s2 :: post) =
      mkSuggestedGroup files now (0 + (pre ++ s1 :: mid).length) s2 ::
        suggestedGroupsAux files now (0 + (pre ++ s1 :: mid).length + 1) post := rfl
  refine ⟨suggestedGroupsAux files now 0 pre,
    mkSuggestedGroup files now (0 + pre.length) s1,
    suggestedGroupsAux files now (0 + pre.length + 1) mid,
    mkSuggestedGroup files now (0 + (pre ++ s1 :: mid).length) s2,
    suggestedGroupsAux files now (0 + (pre ++ s1 :: mid).length + 1) post ++ tail,
    ?_, ?_, ?_, ?_, ?_⟩
  · unfold analyzeChanges
    rw [if_neg hne, Except.ok.injEq, htail, e1, e2, e3, e4]
    simp [List.append_assoc]
  · exact suggestedGroupsAux_length files pre now 0
  · exact suggestedGroupsAux_length files mid now (0 + pre.length + 1)
  · exact List.mem_filter.mpr ⟨hf, h1⟩
  · exact List.mem_filter.mpr ⟨hf, h2⟩

/-- Witness for C2_duplicate_suggestion_amended at the concrete change set
[src/a.ts] with both sample suggestions claiming it. -/
theorem C2_duplicate_suggestion_amended_witness :
    ∃ gpre g1 gmid g2 grest,
      analyzeChanges [mkFC "src/a.ts"] [sgDup1, sgDup2] 0 =
        Except.ok (gpre ++ g1 :: gmid ++ g2 :: grest) ∧
      gpre.length = 0 ∧ gmid.length = 0 ∧
      mkFC "src/a.ts" ∈ g1.files ∧ mkFC "src/a.ts" ∈ g2.files :=
  C2_duplicate_suggestion_amended [mkFC "src/a.ts"] [] [] [] sgDup1 sgDup2 0
    (mkFC "src/a.ts") (by decide) (by decide) (by decide)

theorem sum_map_add_distrib {α : Type} (l : List α) (a b : α → Nat) :
    (l.map (fun f => a f + b f)).sum = (l.map a).sum + (l.map b).sum := by
  induction l with
  | nil => rfl
  | cons h t ih =>
    simp only [List.map_cons, List.sum_cons, ih]
    omega

theorem sum_map_indicator {α : Type} (l : List α) (q : α → Bool) :
    (l.map (fun f => if q f then 1 else 0)).sum = l.countP q := by
  induction l with
  | nil => rfl
  | cons h t ih =>
    rw [List.map_cons, List.sum_cons, ih, List.countP_cons]
    by_cases hq : q h = true
    · simp only [hq, if_true]
      omega
    · simp only [hq, if_false]
      omega

theorem length_filter_add_length_filter_not {α : Type} (l : List α) (q : α → Bool) :
    (l.filter q).length + (l.filter (fun x => !(q x))).length = l.length := by
  induction l with
  | nil => rfl
  | cons h t ih =>
    rw [List.filter_cons, List.filter_cons]
    by_cases hq : q h = true
    · rw [if_pos hq, if_neg (by simp [hq])]
      simp only [List.length_cons]
      omega
    · rw [if_neg hq, if_pos (by simp [hq])]
      simp only [List.length_cons]
      omega

theorem sum_resolve_swap (files : List FileChange) (sugs : List Suggestion) :
    (sugs.map (fun s => (resolveFiles files s).length)).sum =
      (files.map (fun f => sugs.countP (fun s => sugMatches s f))).sum := by
  induction sugs with
  | nil => simp [List.countP_nil]
  | cons s rest ih =>
    rw [List.map_cons, List.sum_cons, ih]
    have hres : (resolveFiles files s).length = files.countP (fun c => sugMatches s c) := by
      rw [resolveFiles, ← List.countP_eq_length_filter]
    have hsplit :
        (files.map (fun f => (s :: rest).countP (fun t => sugMatches t f))).sum =
          (files.map (fun f => (if sugMatches s f then 1 else 0) +
                rest.countP (fun t => sugMatches t f))).sum := by
      congr 1
      apply List.map_congr_left
      intro f _
      rw [List.countP_cons]
      omega
    rw [hres, hsplit, sum_map_add_distrib, sum_map_indicator]

theorem mem_groupedPathList_iff (files : List FileChange) (sugs : List Suggestion)
    (now idx : Nat) (q : String) :
    q ∈ groupedPathList (suggestedGroupsAux files now idx sugs) ↔
      ∃ s ∈ sugs, ∃ f ∈ files, sugMatches s f = true ∧ q = normalizePath f.path := by
  induction sugs generalizing idx with
  | nil => simp [groupedPathList, suggestedGroupsAux]
  | cons s rest ih =>
    rw [suggestedGroupsAux]
    constructor
    · intro h
      rw [groupedPathList, List.map_cons, List.flatten_cons, List.mem_append] at h
      rcases h with h | h
      · rw [List.mem_map] at h
        obtain ⟨f, hfmem, hq⟩ := h
        have hfm := List.mem_filter.mp hfmem
        exact ⟨s, List.mem_cons_self s rest, f, hfm.1, hfm.2, hq.symm⟩
      · have := (ih (idx + 1)).mp h
        obtain ⟨t, htmem, f, hfmem, hm, hq⟩ := this
        exact ⟨t, List.mem_cons_of_mem s htmem, f, hfmem, hm, hq⟩
    · rintro ⟨t, htmem, f, hfmem, hm, hq⟩
      rw [groupedPathList, List.map_cons, List.flatten_cons, List.mem_append]
      rcases List.mem_cons.mp htmem with heq | htrest
      · subst heq
        left
        rw [List.mem_map]
        exact ⟨f, List.mem_filter.mpr ⟨hfmem, hm⟩, hq.symm⟩
      · right
        exact (ih (idx + 1)).mpr ⟨t, htrest, f, hfmem, hm, hq⟩

theorem sugMatches_of_norm_eq (s : Suggestion) (f f' : FileChange)
    (hnorm : normalizePath f'.path = normalizePath f.path)
    (hm : sugMatches s f' = true) : sugMatches s f = true := by
  rw [sugMatches] at hm ⊢
  rw [← hnorm]
  exact hm

theorem unassigned_eq_filter_not_any (files : List FileChange) (sugs : List Suggestion)
    (now : Nat) :
    unassignedFiles files (suggestedGroupsAux files now 0 sugs) =
      files.filter (fun f => !(sugs.any (fun s => sugMatches s f))) := by
  rw [unassignedFiles]
  apply List.filter_congr
  intro f hf
  congr 1
  by_cases hany : sugs.any (fun s => sugMatches s f) = true
  · rw [hany]
    simp only [List.contains, List.elem_eq_mem, decide_eq_true_eq]
    rw [List.any_eq_true] at hany
    obtain ⟨s, hsmem, hm⟩ := hany
    exact (mem_groupedPathList_iff files sugs now 0 _).mpr ⟨s, hsmem, f, hf, hm, rfl⟩
  · rw [Bool.not_eq_true] at hany
    rw [hany]
    simp only [List.contains, List.elem_eq_mem, decide_eq_false_iff_not]
    intro hcon
    obtain ⟨s, hsmem, f', hfmem', hm', hq⟩ := (mem_groupedPathList_iff files sugs now 0 _).mp hcon
    have hmf : sugMatches s f = true := sugMatches_of_norm_eq s f f' hq.symm hm'
    have hany2 : sugs.any (fun t => sugMatches t f) = true := List.any_eq_true.mpr ⟨s, hsmem, hmf⟩
    rw [hany2] at hany
    cases hany

theorem totalFiles_suggested (files : List FileChange) (sugs : List Suggestion)
    (now idx : Nat) :
    totalFiles (suggestedGroupsAux files now idx sugs) =
      (sugs.map (fun s => (resolveFiles files s).length)).sum := by
  induction sugs generalizing idx with
  | nil => rfl
  | cons s rest ih =>
    have hih := ih (idx + 1)
    unfold totalFiles at hih ⊢
    rw [suggestedGroupsAux, List.map_cons, List.sum_cons, List.map_cons, List.sum_cons, hih]
    rfl

theorem assigned_sum_eq (files : List FileChange) (sugs : List Suggestion)
    (hdisj : ∀ f ∈ files, sugs.countP (fun s => sugMatches s f) ≤ 1) :
    (sugs.map (fun s => (resolveFiles files s).length)).sum =
      (assignedFiles files sugs).length := by
  rw [sum_resolve_swap]
  have hpt : (files.map (fun f => sugs.countP (fun s => sugMatches s f))).sum =
      (files.map (fun f => if sugs.any (fun s => sugMatches s f) then 1 else 0)).sum := by
    congr 1
    apply List.map_congr_left
    intro f hf
    by_cases hany : sugs.any (fun s => sugMatches s f) = true
    · rw [if_pos hany]
      rw [List.any_eq_true] at hany
      obtain ⟨s, hsmem, hm⟩ := hany
      have hpos : 0 < sugs.countP (fun s => sugMatches s f) :=
        List.countP_pos_iff.mpr ⟨s, hsmem, hm⟩
      have := hdisj f hf
      omega
    · rw [if_neg hany]
      rw [Bool.not_eq_true] at hany
      by_contra hne
      have hpos : 0 < sugs.countP (fun s => sugMatches s f) := Nat.pos_of_ne_zero (by omega)
      obtain ⟨s, hsmem, hm⟩ := List.countP_pos_iff.mp hpos
      have : sugs.any (fun t => sugMatches t f) = true := List.any_eq_true.mpr ⟨s, hsmem, hm⟩
      rw [this] at hany
      cases hany
  rw [hpt, sum_map_indicator, assignedFiles, List.countP_eq_length_filter]

/-- C3 counterexample: with two files [src/a.ts, src/b.ts] and two
suggestions both claiming src/a.ts, the resolved subset has size k = 1 < 2
= N, yet analysis produces groups totalling 3 files, not N. -/
theorem C3_counterexample :
    (assignedFiles [mkFC "src/a.ts", mkFC "src/b.ts"] [sgDup1, sgDup2]).length = 1 ∧
    totalFiles (analyzeCore [mkFC "src/a.ts", mkFC "src/b.ts"] [sgDup1, sgDup2] 0) = 3 := by
  constructor
  · decide
  · decide

/-- C3 (amended): provided no file of the filtered change set is resolved
by more than one suggestion, analysis is catch-all complete: when the
suggestions resolve a strict subset of k < N files, the produced groups
total exactly N files, number one more than the suggestions, and end with
the synthetic catch-all group holding exactly the N - k unassigned files;
when the suggestions cover all N files, the result is exactly the
suggested groups and no catch-all group is created. -/
theorem C3_catch_all_amended (files : List FileChange) (sugs : List Suggestion) (now : Nat)
    (hdisj : ∀ f ∈ files, sugs.countP (fun s => sugMatches s f) ≤ 1) :
    ((assignedFiles files sugs).length < files.length →
       totalFiles (analyzeCore files sugs now) = files.length ∧
       (analyzeCore files sugs now).length = sugs.length + 1 ∧
       ∃ c, (analyzeCore files sugs now).getLast? = some c ∧
         c.name = "other-changes" ∧
         c.files = files.filter (fun f => !(sugs.any (fun s => sugMatches s f))) ∧
         c.files.length = files.length - (assignedFiles files sugs).length) ∧
    ((assignedFiles files sugs).length = files.length →
       analyzeCore files sugs now = suggestedGroupsAux files now 0 sugs) := by
  have hun := unassigned_eq_filter_not_any files sugs now
  have hlen := length_filter_add_length_filter_not files
    (fun c => sugs.any (fun s => sugMatches s c))
  have hsum := assigned_sum_eq files sugs hdisj
  have htot := totalFiles_suggested files sugs now 0
  have hmissLen : (unassignedFiles files (suggestedGroupsAux files now 0 sugs)).length =
      files.length - (assignedFiles files sugs).length := by
    rw [hun, assignedFiles]
    omega
  constructor
  · intro hk
    have hmissNe : ¬ ((unassignedFiles files (suggestedGroupsAux files now 0 sugs)).isEmpty = true) := by
      rw [List.isEmpty_iff_length_eq_zero]
      omega
    have hres : analyzeCore files sugs now =
        suggestedGroupsAux files now 0 sugs ++
          [catchAllGroup (unassignedFiles files (suggestedGroupsAux files now 0 sugs))
            (suggestedGroupsAux files now 0 sugs).length now] := by
      simp only [analyzeCore]
      rw [if_neg hmissNe]
    refine ⟨?_, ?_, ?_⟩
    · unfold totalFiles at htot ⊢
      rw [hres, List.map_append, List.sum_append]
      simp only [List.map_cons, List.map_nil, List.sum_cons, List.sum_nil, catchAllGroup]
      rw [htot, hsum]
      omega
    · rw [hres, List.length_append, suggestedGroupsAux_length]
      rfl
    · refine ⟨catchAllGroup (unassignedFiles files (suggestedGroupsAux files now 0 sugs))
        (suggestedGroupsAux files now 0 sugs).length now, ?_, rfl, ?_, ?_⟩
      · rw [hres, List.getLast?_concat]
      · rw [catchAllGroup, hun]
      · rw [catchAllGroup]
        exact hmissLen
  · intro hk
    have hmissEmpty : (unassignedFiles files (suggestedGroupsAux files now 0 sugs)).isEmpty = true := by
      rw [List.isEmpty_iff_length_eq_zero]
      omega
    simp only [analyzeCore]
    rw [if_pos hmissEmpty]

/-- Witness for C3_catch_all_amended: two files, one suggestion claiming
only src/a.ts: the result totals 2 files with the catch-all holding
src/b.ts. -/
theorem C3_catch_all_amended_witness :
    (assignedFiles [mkFC "src/a.ts", mkFC "src/b.ts"] [sgDup1]).length <
        ([mkFC "src/a.ts", mkFC "src/b.ts"] : List FileChange).length ∧
    totalFiles (analyzeCore [mkFC "src/a.ts", mkFC "src/b.ts"] [sgDup1] 0) =
        ([mkFC "src/a.ts", mkFC "src/b.ts"] : List FileChange).length :=
  ⟨by decide,
   ((C3_catch_all_amended [mkFC "src/a.ts", mkFC "src/b.ts"] [sgDup1] 0
       (by decide)).1 (by decide)).1⟩

theorem filesCount_nil (p : String) : filesCount [] p = 0 := rfl

theorem filesCount_cons (f : FileChange) (t : List FileChange) (p : String) :
    filesCount (f :: t) p = filesCount t p + (if f.path == p then 1 else 0) := by
  rw [filesCount, List.countP_cons, filesCount]

theorem filesCount_append (a b : List FileChange) (p : String) :
    filesCount (a ++ b) p = filesCount a p + filesCount b p := by
  rw [filesCount, List.countP_append, filesCount, filesCount]

theorem removeFirstFile_spec (files : List FileChange) (fp : String) (f : FileChange)
    (rest : List FileChange) (h : removeFirstFile files fp = some (f, rest)) :
    f.path = fp ∧
      ∀ q, filesCount files q = filesCount rest q + (if f.path == q then 1 else 0) := by
  induction files generalizing rest with
  | nil => simp [removeFirstFile] at h
  | cons g t ih =>
    rw [removeFirstFile] at h
    by_cases hg : (g.path == fp) = true
    · rw [if_pos hg] at h
      rw [Option.some.injEq, Prod.mk.injEq] at h
      obtain ⟨hf, hrest⟩ := h
      subst hf
      subst hrest
      exact ⟨eq_of_beq hg, fun q => filesCount_cons g t q⟩
    · rw [if_neg hg] at h
      cases hrec : removeFirstFile t fp with
      | none =>
        rw [hrec] at h
        exact Option.noConfusion h
      | some pr =>
        obtain ⟨f2, rest2⟩ := pr
        rw [hrec] at h
        simp only [Option.map] at h
        rw [Option.some.injEq, Prod.mk.injEq] at h
        obtain ⟨hf2, hrest⟩ := h
        subst hf2
        subst hrest
        obtain ⟨hpath, hcount⟩ := ih rest2 hrec
        refine ⟨hpath, fun q => ?_⟩
        rw [filesCount_cons, filesCount_cons, hcount q]
        omega

theorem updateFirst_ids (gs : List CommitGroup) (i : String) (f : CommitGroup → CommitGroup)
    (hf : ∀ g, (f g).id = g.id) :
    (updateFirst gs i f).map (fun g => g.id) = gs.map (fun g => g.id) := by
  induction gs with
  | nil => rfl
  | cons g t ih =>
    rw [updateFirst]
    by_cases hg : (g.id == i) = true
    · rw [if_pos hg, List.map_cons, List.map_cons, hf]
    · rw [if_neg hg, List.map_cons, List.map_cons, ih]

theorem updateFirst_of_findGroup_none (gs : List CommitGroup) (i : String)
    (f : CommitGroup → CommitGroup) (h : findGroup gs i = none) :
    updateFirst gs i f = gs := by
  induction gs with
  | nil => rfl
  | cons g t ih =>
    rw [findGroup, List.find?_cons] at h
    rw [updateFirst]
    by_cases hg : (g.id == i) = true
    · simp only [hg] at h
      exact Option.noConfusion h
    · simp only [Bool.not_eq_true] at hg
      simp only [hg] at h
      rw [if_neg (by simp [hg]), ih h]

theorem findGroup_updateFirst_self (gs : List CommitGroup) (i : String)
    (f : CommitGroup → CommitGroup) (g : CommitGroup) (hf : ∀ h, (f h).id = h.id)
    (hg : findGroup gs i = some g) :
    findGroup (updateFirst gs i f) i = some (f g) := by
  induction gs with
  | nil => simp [findGroup] at hg
  | cons h t ih =>
    rw [findGroup, List.find?_cons] at hg
    rw [updateFirst]
    by_cases hh : (h.id == i) = true
    · simp only [hh] at hg
      cases hg
      rw [if_pos hh, findGroup, List.find?_cons]
      have hfid : ((f g).id == i) = true := by rw [hf]; exact hh
      simp only [hfid]
    · simp only [Bool.not_eq_true] at hh
      simp only [hh] at hg
      rw [if_neg (by simp [hh]), findGroup, List.find?_cons]
      simp only [hh]
      exact ih hg

theorem findGroup_updateFirst_other (gs : List CommitGroup) (i j : String)
    (f : CommitGroup → CommitGroup) (hf : ∀ h, (f h).id = h.id) (hne : j ≠ i) :
    findGroup (updateFirst gs i f) j = findGroup gs j := by
  induction gs with
  | nil => rfl
  | cons h t ih =>
    rw [updateFirst]
    by_cases hh : (h.id == i) = true
    · rw [if_pos hh, findGroup, List.find?_cons, findGroup, List.find?_cons]
      have h1 : ((f h).id == j) = false := by
        rw [hf]
        have : h.id = i := eq_of_beq hh
        rw [this]
        exact beq_eq_false_iff_ne.mpr (fun e => hne e.symm)
      have h2 : (h.id == j) = false := by
        have : h.id = i := eq_of_beq hh
        rw [this]
        exact beq_eq_false_iff_ne.mpr (fun e => hne e.symm)
      simp only [h1, h2]
    · rw [if_neg hh, findGroup, List.find?_cons, findGroup, List.find?_cons]
      by_cases hj : (h.id == j) = true
      · simp only [hj]
      · simp only [Bool.not_eq_true] at hj
        simp only [hj]
        exact ih

theorem groupsCount_updateFirst_fn (gs : List CommitGroup) (i p : String)
    (f : CommitGroup → CommitGroup) (g : CommitGroup) (hg : findGroup gs i = some g) :
    groupsCount (updateFirst gs i f) p + filesCount g.files p =
      groupsCount gs p + filesCount (f g).files p := by
  induction gs with
  | nil => simp [findGroup] at hg
  | cons h t ih =>
    rw [findGroup, List.find?_cons] at hg
    rw [updateFirst]
    by_cases hh : (h.id == i) = true
    · simp only [hh] at hg
      cases hg
      rw [if_pos hh, groupsCount_cons, groupsCount_cons]
      omega
    · simp only [Bool.not_eq_true] at hh
      simp only [hh] at hg
      rw [if_neg (by simp [hh]), groupsCount_cons, groupsCount_cons]
      have := ih hg
      omega

theorem filesCount_le_groupsCount (gs : List CommitGroup) (g : CommitGroup) (p : String)
    (h : g ∈ gs) : filesCount g.files p ≤ groupsCount gs p := by
  induction gs with
  | nil => cases h
  | cons h0 t ih =>
    rw [groupsCount_cons]
    rcases List.mem_cons.mp h with he | ht
    · subst he
      omega
    · have := ih ht
      omega

theorem findGroup_mem (gs : List CommitGroup) (i : String) (g : CommitGroup)
    (h : findGroup gs i = some g) : g ∈ gs ∧ g.id = i := by
  rw [findGroup] at h
  have hp := List.find?_some h
  exact ⟨List.mem_of_find?_eq_some h, eq_of_beq hp⟩

theorem two_findGroup_le_groupsCount (gs : List CommitGroup) (a b : String)
    (ga gb : CommitGroup) (p : String) (hne : a ≠ b)
    (ha : findGroup gs a = some ga) (hb : findGroup gs b = some gb) :
    filesCount ga.files p + filesCount gb.files p ≤ groupsCount gs p := by
  induction gs with
  | nil => simp [findGroup] at ha
  | cons h t ih =>
    rw [findGroup, List.find?_cons] at ha hb
    rw [groupsCount_cons]
    by_cases hha : (h.id == a) = true
    · simp only [hha] at ha
      cases ha
      have hhb : (ga.id == b) = false := by
        have : ga.id = a := eq_of_beq hha
        rw [this]
        exact beq_eq_false_iff_ne.mpr hne
      simp only [hhb] at hb
      have hmem := (findGroup_mem t b gb hb).1
      have := filesCount_le_groupsCount t gb p hmem
      omega
    · simp only [Bool.not_eq_true] at hha
      simp only [hha] at ha
      by_cases hhb : (h.id == b) = true
      · simp only [hhb] at hb
        cases hb
        have hmem := (findGroup_mem t a ga ha).1
        have := filesCount_le_groupsCount t ga p hmem
        omega
      · simp only [Bool.not_eq_true] at hhb
        simp only [hhb] at hb
        have := ih ha hb
        omega

theorem groupsCount_filter_out (gs : List CommitGroup) (i p : String) (g : CommitGroup)
    (hnd : (gs.map (fun x => x.id)).Nodup) (hg : findGroup gs i = some g) :
    groupsCount (gs.filter (fun h => !(h.id == i))) p + filesCount g.files p =
      groupsCount gs p := by
  induction gs with
  | nil => simp [findGroup] at hg
  | cons h t ih =>
    rw [findGroup, List.find?_cons] at hg
    rw [List.map_cons, List.nodup_cons] at hnd
    rw [List.filter_cons]
    by_cases hh : (h.id == i) = true
    · simp only [hh] at hg
      cases hg
      rw [if_neg (by simp [hh]), groupsCount_cons]
      have hfid : t.filter (fun x => !(x.id == g.id)) = t := by
        rw [List.filter_eq_self]
        intro x hx
        have : x.id ≠ g.id := by
          intro he
          exact hnd.1 (by rw [← he]; exact List.mem_map_of_mem (fun y => y.id) hx)
        simp [this]
      have : i = g.id := (eq_of_beq hh).symm
      rw [this, hfid]
      omega
    · simp only [Bool.not_eq_true] at hh
      simp only [hh] at hg
      rw [if_pos (by simp [hh]), groupsCount_cons, groupsCount_cons]
      have := ih hnd.2 hg
      omega

theorem mergeFiles_count (tfiles sfiles : List FileChange) (p : String)
    (hle : filesCount tfiles p + filesCount sfiles p ≤ 1) :
    filesCount (mergeFiles tfiles sfiles) p =
      filesCount tfiles p + filesCount sfiles p := by
  induction sfiles generalizing tfiles with
  | nil =>
    rw [mergeFiles, List.foldl_nil, filesCount_nil]
    omega
  | cons f rest ih =>
    rw [mergeFiles, List.foldl_cons, ← mergeFiles]
    rw [filesCount_cons] at hle ⊢
    by_cases hany : tfiles.any (fun t => t.path == f.path) = true
    · rw [if_pos hany]
      by_cases hfp : (f.path == p) = true
      · exfalso
        obtain ⟨t, htmem, htp⟩ := List.any_eq_true.mp hany
        have ht1 : 0 < filesCount tfiles p := by
          rw [filesCount, List.countP_pos_iff]
          refine ⟨t, htmem, ?_⟩
          rw [eq_of_beq htp]
          exact hfp
        simp only [hfp, if_true] at hle
        omega
      · rw [Bool.not_eq_true] at hfp
        simp only [hfp, Bool.false_eq_true, if_false] at hle ⊢
        rw [ih tfiles (by omega)]
        omega
    · rw [if_neg hany]
      have hstep : filesCount (tfiles ++ [f]) p =
          filesCount tfiles p + (if f.path == p then 1 else 0) := by
        rw [filesCount_append, filesCount_cons, filesCount_nil]
        omega
      rw [ih (tfiles ++ [f]) (by rw [hstep]; omega), hstep]
      omega

theorem filesCount_singleton (f : FileChange) (p : String) :
    filesCount [f] p = (if f.path == p then 1 else 0) := by
  rw [filesCount_cons, filesCount_nil]
  omega

theorem pathCount_moveFileToGroup (s : EngineState) (fp fromId toId p : String)
    (hnd : (s.groups.map (fun g => g.id)).Nodup) :
    pathCount (moveFileToGroup s fp fromId toId) p = pathCount s p := by
  cases hFrom : findGroup s.groups fromId with
  | none => simp only [moveFileToGroup, hFrom]
  | some fromG =>
    cases hTo : findGroup s.groups toId with
    | none => simp only [moveFileToGroup, hFrom, hTo]
    | some toG =>
      cases hRem : removeFirstFile fromG.files fp with
      | none => simp only [moveFileToGroup, hFrom, hTo, hRem]
      | some pr =>
        obtain ⟨file, rest⟩ := pr
        obtain ⟨hfp, hcnt⟩ := removeFirstFile_spec fromG.files fp file rest hRem
        have h1 := hcnt p
        by_cases hid : (fromId == toId) = true
        · simp only [moveFileToGroup, hFrom, hTo, hRem, hid, if_true]
          simp only [pathCount]
          have hupd := groupsCount_updateFirst_fn s.groups fromId p
            (fun g => { g with files := rest ++ [file] }) fromG hFrom
          rw [filesCount_append, filesCount_singleton] at hupd
          omega
        · rw [Bool.not_eq_true] at hid
          simp only [moveFileToGroup, hFrom, hTo, hRem, hid, Bool.false_eq_true, if_false]
          have hne : toId ≠ fromId := by
            intro e
            rw [e] at hid
            simp at hid
          have hA : groupsCount (updateFirst s.groups fromId
              (fun g => { g with files := rest })) p + filesCount fromG.files p =
              groupsCount s.groups p + filesCount rest p :=
            groupsCount_updateFirst_fn s.groups fromId p
              (fun g => { g with files := rest }) fromG hFrom
          have hB : findGroup (updateFirst s.groups fromId
              (fun g => { g with files := rest })) toId = some toG :=
            (findGroup_updateFirst_other s.groups fromId toId
              (fun g => { g with files := rest }) (fun _ => rfl) hne).trans hTo
          have hC : groupsCount (updateFirst (updateFirst s.groups fromId
              (fun g => { g with files := rest })) toId
              (fun g => { g with files := g.files ++ [file] })) p +
                filesCount toG.files p =
              groupsCount (updateFirst s.groups fromId
                (fun g => { g with files := rest })) p +
                filesCount (toG.files ++ [file]) p :=
            groupsCount_updateFirst_fn
              (updateFirst s.groups fromId (fun g => { g with files := rest })) toId p
              (fun g => { g with files := g.files ++ [file] }) toG hB
          rw [filesCount_append, filesCount_singleton] at hC
          by_cases hemp : rest.isEmpty = true
          · rw [if_pos hemp]
            simp only [pathCount]
            have hD : findGroup (updateFirst s.groups fromId
                (fun g => { g with files := rest })) fromId =
                some { fromG with files := rest } :=
              findGroup_updateFirst_self s.groups fromId
                (fun g => { g with files := rest }) fromG (fun _ => rfl) hFrom
            have hE : findGroup (updateFirst (updateFirst s.groups fromId
                (fun g => { g with files := rest })) toId
                (fun g => { g with files := g.files ++ [file] })) fromId =
                some { fromG with files := rest } :=
              (findGroup_updateFirst_other _ toId fromId
                (fun g => { g with files := g.files ++ [file] }) (fun _ => rfl)
                (fun e => hne e.symm)).trans hD
            have hnd2 : ((updateFirst (updateFirst s.groups fromId
                (fun g => { g with files := rest })) toId
                (fun g => { g with files := g.files ++ [file] })).map
                  (fun g => g.id)).Nodup := by
              rw [updateFirst_ids _ toId (fun g => { g with files := g.files ++ [file] })
                  (fun _ => rfl),
                updateFirst_ids _ fromId (fun g => { g with files := rest }) (fun _ => rfl)]
              exact hnd
            have hF : groupsCount ((updateFirst (updateFirst s.groups fromId
                (fun g => { g with files := rest })) toId
                (fun g => { g with files := g.files ++ [file] })).filter
                  (fun h => !(h.id == fromId))) p + filesCount rest p =
                groupsCount (updateFirst (updateFirst s.groups fromId
                  (fun g => { g with files := rest })) toId
                  (fun g => { g with files := g.files ++ [file] })) p :=
              groupsCount_filter_out _ fromId p _ hnd2 hE
            have hrest0 : filesCount rest p = 0 := by
              rw [List.isEmpty_iff] at hemp
              rw [hemp, filesCount_nil]
            omega
          · rw [if_neg hemp]
            simp only [pathCount]
            omega

theorem pathCount_removeFileFromGroup (s : EngineState) (fp gid p : String)
    (hnd : (s.groups.map (fun g => g.id)).Nodup) :
    pathCount (removeFileFromGroup s fp gid).1 p = pathCount s p := by
  cases hG : findGroup s.groups gid with
  | none => simp only [removeFileFromGroup, hG]
  | some g =>
    cases hRem : removeFirstFile g.files fp with
    | none => simp only [removeFileFromGroup, hG, hRem]
    | some pr =>
      obtain ⟨file, rest⟩ := pr
      obtain ⟨hfp, hcnt⟩ := removeFirstFile_spec g.files fp file rest hRem
      have h1 := hcnt p
      simp only [removeFileFromGroup, hG, hRem]
      have hA : groupsCount (updateFirst s.groups gid
          (fun h => { h with files := rest })) p + filesCount g.files p =
          groupsCount s.groups p + filesCount rest p :=
        groupsCount_updateFirst_fn s.groups gid p
          (fun h => { h with files := rest }) g hG
      have hpool : filesCount (s.ungroupedFiles ++ [file]) p =
          filesCount s.ungroupedFiles p + (if file.path == p then 1 else 0) := by
        rw [filesCount_append, filesCount_singleton]
      by_cases hemp : rest.isEmpty = true
      · rw [if_pos hemp]
        simp only [pathCount]
        have hD : findGroup (updateFirst s.groups gid (fun h => { h with files := rest }))
            gid = some { g with files := rest } :=
          findGroup_updateFirst_self s.groups gid
            (fun h => { h with files := rest }) g (fun _ => rfl) hG
        have hnd2 : ((updateFirst s.groups gid (fun h => { h with files := rest })).map
            (fun g => g.id)).Nodup := by
          rw [updateFirst_ids _ gid (fun h => { h with files := rest }) (fun _ => rfl)]
          exact hnd
        have hF : groupsCount ((updateFirst s.groups gid
            (fun h => { h with files := rest })).filter
              (fun h => !(h.id == gid))) p + filesCount rest p =
            groupsCount (updateFirst s.groups gid
              (fun h => { h with files := rest })) p :=
          groupsCount_filter_out _ gid p _ hnd2 hD
        have hrest0 : filesCount rest p = 0 := by
          rw [List.isEmpty_iff] at hemp
          rw [hemp, filesCount_nil]
        rw [hpool]
        omega
      · rw [if_neg hemp]
        simp only [pathCount]
        rw [hpool]
        omega

theorem pathCount_addFileToGroup (s : EngineState) (fp gid p : String) :
    pathCount (addFileToGroup s fp gid).1 p = pathCount s p := by
  cases hRem : removeFirstFile s.ungroupedFiles fp with
  | none => simp only [addFileToGroup, hRem]
  | some pr =>
    obtain ⟨file, rest⟩ := pr
    cases hG : findGroup s.groups gid with
    | none => simp only [addFileToGroup, hRem, hG]
    | some g =>
      obtain ⟨hfp, hcnt⟩ := removeFirstFile_spec s.ungroupedFiles fp file rest hRem
      have h1 := hcnt p
      simp only [addFileToGroup, hRem, hG]
      simp only [pathCount]
      have hA : groupsCount (updateFirst s.groups gid
          (fun h => { h with files := h.files ++ [file] })) p + filesCount g.files p =
          groupsCount s.groups p + filesCount (g.files ++ [file]) p :=
        groupsCount_updateFirst_fn s.groups gid p
          (fun h => { h with files := h.files ++ [file] }) g hG
      rw [filesCount_append, filesCount_singleton] at hA
      omega

theorem pathCount_mergeGroups (s : EngineState) (src tgt p : String)
    (hnd : (s.groups.map (fun g => g.id)).Nodup) (hone : pathCount s p ≤ 1) :
    pathCount (mergeGroups s src tgt).1 p = pathCount s p := by
  cases hS : findGroup s.groups src with
  | none => simp only [mergeGroups, hS]
  | some srcG =>
    cases hT : findGroup s.groups tgt with
    | none => simp only [mergeGroups, hS, hT]
    | some tgtG =>
      by_cases heq : (src == tgt) = true
      · simp only [mergeGroups, hS, hT, heq, if_true]
      · rw [Bool.not_eq_true] at heq
        simp only [mergeGroups, hS, hT, heq, Bool.false_eq_true, if_false]
        simp only [pathCount] at hone ⊢
        have hne : src ≠ tgt := by
          intro e
          rw [e] at heq
          simp at heq
        have htwole : filesCount srcG.files p + filesCount tgtG.files p ≤
            groupsCount s.groups p :=
          two_findGroup_le_groupsCount s.groups src tgt srcG tgtG p hne hS hT
        have hmerge := mergeFiles_count tgtG.files srcG.files p (by omega)
        have hU : groupsCount (updateFirst s.groups tgt
            (fun g => { g with files := mergeFiles g.files srcG.files })) p +
              filesCount tgtG.files p =
            groupsCount s.groups p + filesCount (mergeFiles tgtG.files srcG.files) p :=
          groupsCount_updateFirst_fn s.groups tgt p
            (fun g => { g with files := mergeFiles g.files srcG.files }) tgtG hT
        have hSrcU : findGroup (updateFirst s.groups tgt
            (fun g => { g with files := mergeFiles g.files srcG.files })) src =
            some srcG :=
          (findGroup_updateFirst_other s.groups tgt src
            (fun g => { g with files := mergeFiles g.files srcG.files })
            (fun _ => rfl) hne).trans hS
        have hnd2 : ((updateFirst s.groups tgt
            (fun g => { g with files := mergeFiles g.files srcG.files })).map
              (fun g => g.id)).Nodup := by
          rw [updateFirst_ids _ tgt
            (fun g => { g with files := mergeFiles g.files srcG.files }) (fun _ => rfl)]
          exact hnd
        have hFo : groupsCount ((updateFirst s.groups tgt
            (fun g => { g with files := mergeFiles g.files srcG.files })).filter
              (fun h => !(h.id == src))) p + filesCount srcG.files p =
            groupsCount (updateFirst s.groups tgt
              (fun g => { g with files := mergeFiles g.files srcG.files })) p :=
          groupsCount_filter_out _ src p srcG hnd2 hSrcU
        omega

theorem pathCount_createGroup (s : EngineState) (nm msg : String) (now : Nat)
    (p : String) : pathCount (createGroup s nm msg now).1 p = pathCount s p := by
  simp only [createGroup, pathCount]
  rw [groupsCount_append, groupsCount_cons, groupsCount_nil, filesCount_nil]
  omega

theorem pathCount_updateGroupMessage (s : EngineState) (gid msg p : String) :
    pathCount (updateGroupMessage s gid msg) p = pathCount s p := by
  cases hG : findGroup s.groups gid with
  | none =>
    simp only [updateGroupMessage, pathCount]
    rw [updateFirst_of_findGroup_none s.groups gid _ hG]
  | some g =>
    simp only [updateGroupMessage, pathCount]
    have hA : groupsCount (updateFirst s.groups gid
        (fun h => { h with message := msg })) p + filesCount g.files p =
        groupsCount s.groups p + filesCount g.files p :=
      groupsCount_updateFirst_fn s.groups gid p (fun h => { h with message := msg }) g hG
    omega

/-- C1: partition invariant: in any engine state with pairwise distinct
group ids in which every path of the known change set occurs exactly once
across all groups' files and the ungrouped pool, each mutation operation —
moveFileToGroup, removeFileFromGroup, addFileToGroup, mergeGroups,
createGroup and updateGroupMessage — preserves that property: afterwards
every such path is still present, never zero times and never twice. -/
theorem C1_partition_invariant (s : EngineState) (known : List String)
    (hnd : (s.groups.map (fun g => g.id)).Nodup)
    (hpart : ∀ p ∈ known, pathCount s p = 1) :
    (∀ p ∈ known, ∀ fp fromId toId,
        pathCount (moveFileToGroup s fp fromId toId) p = 1) ∧
    (∀ p ∈ known, ∀ fp gid, pathCount (removeFileFromGroup s fp gid).1 p = 1) ∧
    (∀ p ∈ known, ∀ fp gid, pathCount (addFileToGroup s fp gid).1 p = 1) ∧
    (∀ p ∈ known, ∀ src tgt, pathCount (mergeGroups s src tgt).1 p = 1) ∧
    (∀ p ∈ known, ∀ nm msg now, pathCount (createGroup s nm msg now).1 p = 1) ∧
    (∀ p ∈ known, ∀ gid msg, pathCount (updateGroupMessage s gid msg) p = 1) := by
  refine ⟨?_, ?_, ?_, ?_, ?_, ?_⟩
  · intro p hp fp fromId toId
    rw [pathCount_moveFileToGroup s fp fromId toId p hnd]
    exact hpart p hp
  · intro p hp fp gid
    rw [pathCount_removeFileFromGroup s fp gid p hnd]
    exact hpart p hp
  · intro p hp fp gid
    rw [pathCount_addFileToGroup s fp gid p]
    exact hpart p hp
  · intro p hp src tgt
    rw [pathCount_mergeGroups s src tgt p hnd (by rw [hpart p hp])]
    exact hpart p hp
  · intro p hp nm msg now
    rw [pathCount_createGroup s nm msg now p]
    exact hpart p hp
  · intro p hp gid msg
    rw [pathCount_updateGroupMessage s gid msg p]
    exact hpart p hp

/-- Witness for C1_partition_invariant at a concrete two-group state with a
pooled file: moving src/a.ts and merging the groups both keep each known
path present exactly once. -/
theorem C1_partition_invariant_witness :
    pathCount (moveFileToGroup ⟨[gA, gB], [mkFC "x.ts"]⟩ "src/a.ts" "gA" "gB")
        "src/a.ts" = 1 ∧
    pathCount (mergeGroups ⟨[gA, gB], [mkFC "x.ts"]⟩ "gA" "gB").1 "src/b.ts" = 1 ∧
    pathCount (removeFileFromGroup ⟨[gA, gB], [mkFC "x.ts"]⟩ "src/b.ts" "gB").1
        "src/b.ts" = 1 :=
  ⟨(C1_partition_invariant ⟨[gA, gB], [mkFC "x.ts"]⟩ ["src/a.ts", "src/b.ts", "x.ts"]
      (by decide) (by decide)).1 "src/a.ts" (by decide) "src/a.ts" "gA" "gB",
   (C1_partition_invariant ⟨[gA, gB], [mkFC "x.ts"]⟩ ["src/a.ts", "src/b.ts", "x.ts"]
      (by decide) (by decide)).2.2.2.1 "src/b.ts" (by decide) "gA" "gB",
   (C1_partition_invariant ⟨[gA, gB], [mkFC "x.ts"]⟩ ["src/a.ts", "src/b.ts", "x.ts"]
      (by decide) (by decide)).2.1 "src/b.ts" (by decide) "src/b.ts" "gB"⟩

theorem commitLoop_sum (oracle cancel : Nat → Bool) (toCommit : List CommitGroup) :
    ∀ (s : EngineState) (i attempts succ fail : Nat),
    (commitLoop oracle cancel toCommit s i attempts succ fail).2.success +
      (commitLoop oracle cancel toCommit s i attempts succ fail).2.failed +
      (commitLoop oracle cancel toCommit s i attempts succ fail).2.cancelled =
      succ + fail + toCommit.length := by
  induction toCommit with
  | nil =>
    intro s i attempts succ fail
    simp [commitLoop]
  | cons g rest ih =>
    intro s i attempts succ fail
    rw [commitLoop]
    by_cases hc : cancel i = true
    · rw [if_pos hc]
      simp only [List.length_cons]
    · rw [if_neg hc]
      cases hstep : commitGroupStep s oracle attempts g.id with
      | mk s2 pr =>
        obtain ⟨ok, a2⟩ := pr
        cases ok
        · have := ih s2 (i + 1) a2 succ (fail + 1)
          simp only [List.length_cons]
          omega
        · have := ih s2 (i + 1) a2 (succ + 1) fail
          simp only [List.length_cons]
          omega

theorem commitLoop_nocancel (oracle cancel : Nat → Bool) (toCommit : List CommitGroup)
    (hnc : ∀ j, cancel j = false) :
    ∀ (s : EngineState) (i attempts succ fail : Nat),
    (commitLoop oracle cancel toCommit s i attempts succ fail).2.cancelled = 0 := by
  induction toCommit with
  | nil =>
    intro s i attempts succ fail
    rfl
  | cons g rest ih =>
    intro s i attempts succ fail
    rw [commitLoop, if_neg (by rw [hnc i]; simp)]
    cases hstep : commitGroupStep s oracle attempts g.id with
    | mk s2 pr =>
      obtain ⟨ok, a2⟩ := pr
      cases ok
      · exact ih s2 (i + 1) a2 succ (fail + 1)
      · exact ih s2 (i + 1) a2 (succ + 1) fail

theorem commitLoop_cancel_at (oracle cancel : Nat → Bool) (toCommit : List CommitGroup) :
    ∀ (k : Nat) (s : EngineState) (i attempts succ fail : Nat),
    k < toCommit.length → cancel (i + k) = true → (∀ j, j < k → cancel (i + j) = false) →
    (commitLoop oracle cancel toCommit s i attempts succ fail).2.success +
        (commitLoop oracle cancel toCommit s i attempts succ fail).2.failed =
        succ + fail + k ∧
    (commitLoop oracle cancel toCommit s i attempts succ fail).2.cancelled =
        toCommit.length - k := by
  induction toCommit with
  | nil =>
    intro k s i attempts succ fail hk
    simp at hk
  | cons g rest ih =>
    intro k s i attempts succ fail hk hck hbefore
    rw [commitLoop]
    cases k with
    | zero =>
      rw [Nat.add_zero] at hck
      rw [if_pos hck]
      simp only [List.length_cons]
      exact ⟨rfl, by omega⟩
    | succ m =>
      have hci : cancel i = false := by
        have := hbefore 0 (Nat.succ_pos m)
        rwa [Nat.add_zero] at this
      rw [if_neg (by rw [hci]; simp)]
      have hck2 : cancel (i + 1 + m) = true := by
        rw [show i + 1 + m = i + (m + 1) by omega]
        exact hck
      have hbefore2 : ∀ j, j < m → cancel (i + 1 + j) = false := by
        intro j hj
        rw [show i + 1 + j = i + (j + 1) by omega]
        exact hbefore (j + 1) (by omega)
      have hm : m < rest.length := by
        simp only [List.length_cons] at hk
        omega
      cases hstep : commitGroupStep s oracle attempts g.id with
      | mk s2 pr =>
        obtain ⟨ok, a2⟩ := pr
        cases ok
        · have := ih m s2 (i + 1) a2 succ (fail + 1) hm hck2 hbefore2
          simp only [List.length_cons]
          omega
        · have := ih m s2 (i + 1) a2 (succ + 1) fail hm hck2 hbefore2
          simp only [List.length_cons]
          omega

theorem mem_updateFirst_of_ne (gs : List CommitGroup) (i : String)
    (f : CommitGroup → CommitGroup) (g : CommitGroup) (hg : g ∈ gs) (hne : g.id ≠ i) :
    g ∈ updateFirst gs i f := by
  induction gs with
  | nil => cases hg
  | cons h t ih =>
    rw [updateFirst]
    rcases List.mem_cons.mp hg with he | ht
    · subst he
      rw [if_neg (by simp [beq_eq_false_iff_ne.mpr hne])]
      exact List.mem_cons_self _ _
    · by_cases hh : (h.id == i) = true
      · rw [if_pos hh]
        exact List.mem_cons_of_mem _ ht
      · rw [if_neg hh]
        exact List.mem_cons_of_mem _ (ih ht)

theorem id_mem_of_findGroup (gs : List CommitGroup) (i : String)
    (h : i ∈ gs.map (fun g => g.id)) : ∃ g, findGroup gs i = some g := by
  induction gs with
  | nil => simp at h
  | cons g t ih =>
    rw [List.map_cons, List.mem_cons] at h
    rw [findGroup, List.find?_cons]
    by_cases hg : (g.id == i) = true
    · exact ⟨g, by simp only [hg]⟩
    · rcases h with he | ht
      · exact absurd (beq_iff_eq.mpr he.symm) hg
      · obtain ⟨g', hg'⟩ := ih ht
        rw [Bool.not_eq_true] at hg
        simp only [hg]
        exact ⟨g', hg'⟩

theorem id_mem_filter_out (gs : List CommitGroup) (i gid : String)
    (h : i ∈ gs.map (fun g => g.id)) (hne : i ≠ gid) :
    i ∈ (gs.filter (fun h => !(h.id == gid))).map (fun g => g.id) := by
  rw [List.mem_map] at h ⊢
  obtain ⟨x, hx, hxi⟩ := h
  exact ⟨x, List.mem_filter.mpr ⟨hx, by rw [hxi]; simp [beq_eq_false_iff_ne.mpr hne]⟩, hxi⟩

theorem id_mem_updateFirst (gs : List CommitGroup) (i gid : String)
    (f : CommitGroup → CommitGroup) (hf : ∀ g, (f g).id = g.id)
    (h : i ∈ gs.map (fun g => g.id)) :
    i ∈ (updateFirst gs gid f).map (fun g => g.id) := by
  rw [updateFirst_ids gs gid f hf]
  exact h

theorem commitLoop_preserves_error (oracle cancel : Nat → Bool)
    (rest : List CommitGroup) :
    ∀ (s : EngineState) (i attempts succ fail : Nat) (gid : String),
    (∀ g ∈ rest, g.id ≠ gid) →
    (∃ g' ∈ s.groups, g'.id = gid ∧ g'.status = GroupStatus.error) →
    ∃ g' ∈ (commitLoop oracle cancel rest s i attempts succ fail).1.groups,
      g'.id = gid ∧ g'.status = GroupStatus.error := by
  induction rest with
  | nil =>
    intro s i attempts succ fail gid _ hex
    exact hex
  | cons g t ih =>
    intro s i attempts succ fail gid hne hex
    rw [commitLoop]
    by_cases hc : cancel i = true
    · rw [if_pos hc]
      exact hex
    · rw [if_neg hc]
      obtain ⟨g0, hg0mem, hg0id, hg0st⟩ := hex
      have hgne : g.id ≠ gid := hne g (List.mem_cons_self g t)
      have hne2 : ∀ x ∈ t, x.id ≠ gid := fun x hx => hne x (List.mem_cons_of_mem g hx)
      cases hfind : findGroup s.groups g.id with
      | none =>
        rw [commitGroupStep, hfind]
        exact ih s (i + 1) attempts succ (fail + 1) gid hne2 ⟨g0, hg0mem, hg0id, hg0st⟩
      | some h0 =>
        rw [commitGroupStep, hfind]
        by_cases hor : oracle attempts = true
        · rw [if_pos hor]
          refine ih _ (i + 1) (attempts + 1) (succ + 1) fail gid hne2
            ⟨g0, List.mem_filter.mpr ⟨hg0mem, ?_⟩, hg0id, hg0st⟩
          rw [hg0id]
          simp [beq_eq_false_iff_ne.mpr (fun e => hgne e.symm)]
        · rw [if_neg hor]
          refine ih _ (i + 1) (attempts + 1) succ (fail + 1) gid hne2
            ⟨g0, ?_, hg0id, hg0st⟩
          exact mem_updateFirst_of_ne s.groups g.id _ g0 hg0mem (by rw [hg0id]; exact fun e => hgne e.symm)

theorem commitLoop_failed_error (oracle cancel : Nat → Bool)
    (toCommit : List CommitGroup) :
    ∀ (s : EngineState) (i attempts succ fail : Nat),
    (∀ j, cancel j = false) →
    ((s.groups.map (fun g => g.id)).Nodup) →
    ((toCommit.map (fun g => g.id)).Nodup) →
    (∀ g ∈ toCommit, g.id ∈ s.groups.map (fun x => x.id)) →
    ∀ n (hn : n < toCommit.length), oracle (attempts + n) = false →
    ∃ g' ∈ (commitLoop oracle cancel toCommit s i attempts succ fail).1.groups,
      g'.id = (toCommit.get ⟨n, hn⟩).id ∧ g'.status = GroupStatus.error := by
  induction toCommit with
  | nil =>
    intro s i attempts succ fail _ _ _ _ n hn
    simp at hn
  | cons g rest ih =>
    intro s i attempts succ fail hnc hnd htc hmem n hn hor
    rw [commitLoop, if_neg (by rw [hnc i]; simp)]
    rw [List.map_cons, List.nodup_cons] at htc
    obtain ⟨hfound, hfind⟩ : ∃ h0, findGroup s.groups g.id = some h0 :=
      id_mem_of_findGroup s.groups g.id (hmem g (List.mem_cons_self g rest))
    cases n with
    | zero =>
      rw [Nat.add_zero] at hor
      rw [commitGroupStep, hfind, if_neg (by rw [hor]; simp)]
      refine commitLoop_preserves_error oracle cancel rest _ (i + 1) (attempts + 1)
        succ (fail + 1) g.id ?_ ?_
      · intro x hx he
        exact htc.1 (by rw [← he]; exact List.mem_map_of_mem (fun y => y.id) hx)
      · have hself := findGroup_updateFirst_self s.groups g.id
          (fun x => { x with status := GroupStatus.error }) hfound (fun _ => rfl) hfind
        have hm := findGroup_mem _ g.id _ hself
        exact ⟨_, hm.1, hm.2, rfl⟩
    | succ m =>
      rw [commitGroupStep, hfind]
      have hm : m < rest.length := by
        simp only [List.length_cons] at hn
        omega
      have hor2 : oracle (attempts + 1 + m) = false := by
        rw [show attempts + 1 + m = attempts + (m + 1) by omega]
        exact hor
      by_cases horacle : oracle attempts = true
      · rw [if_pos horacle]
        refine ih _ (i + 1) (attempts + 1) (succ + 1) fail hnc ?_ htc.2 ?_ m hm hor2
        · exact (List.Sublist.map (fun x => x.id)
            (List.filter_sublist s.groups)).nodup hnd
        · intro x hx
          have hxid := hmem x (List.mem_cons_of_mem g hx)
          refine id_mem_filter_out s.groups x.id g.id hxid ?_
          intro he
          exact htc.1 (by rw [← he]; exact List.mem_map_of_mem (fun y => y.id) hx)
      · rw [if_neg horacle]
        refine ih _ (i + 1) (attempts + 1) succ (fail + 1) hnc ?_ htc.2 ?_ m hm hor2
        · rw [updateFirst_ids s.groups g.id
            (fun x => { x with status := GroupStatus.error }) (fun _ => rfl)]
          exact hnd
        · intro x hx
          exact id_mem_updateFirst s.groups x.id g.id
            (fun y => { y with status := GroupStatus.error }) (fun _ => rfl)
            (hmem x (List.mem_cons_of_mem g hx))

theorem groupsToCommit_sublist (s : EngineState) (groupIds : Option (List String)) :
    (groupsToCommit s groupIds).Sublist s.groups := by
  unfold groupsToCommit
  cases groupIds with
  | none => exact List.filter_sublist s.groups
  | some ids =>
    exact (List.filter_sublist _).trans (List.filter_sublist s.groups)

/-- C7: commitAllGroups iterates the selected pending groups in list order
with these guarantees: the returned tallies always satisfy success +
failed + cancelled = number of groups selected; without cancellation no
group is tallied cancelled; when cancellation is first observed before the
k-th group, exactly k groups were attempted and the k-th and all remaining
groups are tallied cancelled and the loop stops; and a group whose
stageAndCommit call fails is marked status error and remains in the active
group list while the batch continues to the end. -/
theorem C7_commitAllGroups (s : EngineState) (strategy : String) (hookOk : Bool)
    (groupIds : Option (List String)) (oracle cancel : Nat → Bool)
    (s' : EngineState) (res : CommitAllResult)
    (hnd : (s.groups.map (fun g => g.id)).Nodup)
    (hok : commitAllGroups s strategy hookOk groupIds oracle cancel =
      Except.ok (s', res)) :
    (res.success + res.failed + res.cancelled = (groupsToCommit s groupIds).length) ∧
    ((∀ j, cancel j = false) → res.cancelled = 0) ∧
    (∀ k, k < (groupsToCommit s groupIds).length → cancel k = true →
       (∀ j, j < k → cancel j = false) →
       res.success + res.failed = k ∧
       res.cancelled = (groupsToCommit s groupIds).length - k) ∧
    ((∀ j, cancel j = false) →
       ∀ n (hn : n < (groupsToCommit s groupIds).length), oracle n = false →
         ∃ g' ∈ s'.groups,
           g'.id = ((groupsToCommit s groupIds).get ⟨n, hn⟩).id ∧
           g'.status = GroupStatus.error) := by
  have hloop : commitLoop oracle cancel (groupsToCommit s groupIds) s 0 0 0 0 = (s', res) := by
    rw [commitAllGroups] at hok
    by_cases hstrat : (strategy == "run-once") = true
    · rw [if_pos hstrat] at hok
      cases hookOk with
      | true =>
        rw [if_pos rfl] at hok
        exact (Except.ok.injEq _ _).mp hok
      | false =>
        rw [if_neg (by simp)] at hok
        exact absurd hok (by simp)
    · rw [if_neg hstrat] at hok
      exact (Except.ok.injEq _ _).mp hok
  have hsub := groupsToCommit_sublist s groupIds
  have htcnd : ((groupsToCommit s groupIds).map (fun g => g.id)).Nodup :=
    (List.Sublist.map (fun g => g.id) hsub).nodup hnd
  have hmem : ∀ g ∈ groupsToCommit s groupIds, g.id ∈ s.groups.map (fun x => x.id) :=
    fun g hg => List.mem_map_of_mem (fun x => x.id) (hsub.mem hg)
  refine ⟨?_, ?_, ?_, ?_⟩
  · have := commitLoop_sum oracle cancel (groupsToCommit s groupIds) s 0 0 0 0
    rw [hloop] at this
    simpa using this
  · intro hnc
    have := commitLoop_nocancel oracle cancel (groupsToCommit s groupIds) hnc s 0 0 0 0
    rw [hloop] at this
    exact this
  · intro k hk hck hbefore
    have := commitLoop_cancel_at oracle cancel (groupsToCommit s groupIds) k s 0 0 0 0
      hk (by simpa using hck) (fun j hj => by simpa using hbefore j hj)
    rw [hloop] at this
    simpa using this
  · intro hnc n hn hor
    have := commitLoop_failed_error oracle cancel (groupsToCommit s groupIds) s 0 0 0 0
      hnc hnd htcnd hmem n hn (by simpa using hor)
    rw [hloop] at this
    exact this

/-- Witness for C7_commitAllGroups: two pending groups, the second
stageAndCommit call failing, no cancellation: tallies are success 1,
failed 1, cancelled 0, and gB remains with status error. -/
theorem C7_commitAllGroups_witness :
    ((1 : Nat) + 1 + 0 = (groupsToCommit ⟨[gA, gB], []⟩ none).length) ∧
    (∃ g' ∈ (⟨[{ gB with status := GroupStatus.error }], []⟩ : EngineState).groups,
      g'.id = ((groupsToCommit ⟨[gA, gB], []⟩ none).get
        ⟨1, by decide⟩).id ∧ g'.status = GroupStatus.error) :=
  have h := C7_commitAllGroups ⟨[gA, gB], []⟩ "run-per-group" true none
    (fun n => n == 0) (fun _ => false)
    ⟨[{ gB with status := GroupStatus.error }], []⟩ ⟨1, 1, 0⟩
    (by decide) (by rfl)
  ⟨h.1, h.2.2.2 (fun _ => rfl) 1 (by decide) (by rfl)⟩

theorem scanLoop_prefix (b : List Char) (a : List Char) :
    ∀ st, (scanLoop a st) <+: scanLoop (a ++ b) st := by
  induction a with
  | nil =>
    intro st
    rw [List.nil_append]
    cases st with
    | between => exact List.nil_prefix
    | inObj depth inS esc acc => exact List.nil_prefix
  | cons c rest ih =>
    intro st
    rw [List.cons_append]
    cases st with
    | between =>
      rw [scanLoop, scanLoop]
      split_ifs
      · exact ih _
      · exact ih _
      · exact List.nil_prefix
    | inObj depth inS esc acc =>
      rw [scanLoop, scanLoop]
      split_ifs
      · exact ih _
      · exact ih _
      · exact ih _
      · exact ih _
      · exact ih _
      · exact List.cons_prefix_cons.mpr ⟨rfl, ih _⟩
      · exact ih _
      · exact ih _

theorem dropWhile_all_append (p : Char → Bool) (w : List Char) (a : Char) (x : List Char)
    (hw : ∀ c ∈ w, p c = true) (ha : p a = false) :
    (w ++ a :: x).dropWhile p = a :: x := by
  induction w with
  | nil =>
    rw [List.nil_append, List.dropWhile_cons, if_neg (by rw [ha]; simp)]
  | cons c t ih =>
    rw [List.cons_append, List.dropWhile_cons,
      if_pos (hw c (List.mem_cons_self c t))]
    exact ih (fun d hd => hw d (List.mem_cons_of_mem c hd))

theorem matchAfterLit_decompose (l r : List Char) (h : matchAfterLit l = some r) :
    ∃ w1 w2, (∀ c ∈ w1, isJsWs c = true) ∧ (∀ c ∈ w2, isJsWs c = true) ∧
      l = w1 ++ ':' :: (w2 ++ '[' :: r) := by
  rw [matchAfterLit] at h
  cases hd1 : l.dropWhile isJsWs with
  | nil =>
    rw [hd1] at h
    exact Option.noConfusion h
  | cons c1 l2 =>
    rw [hd1] at h
    simp only at h
    by_cases hc1 : c1 = ':'
    · rw [if_pos hc1] at h
      subst hc1
      cases hd2 : l2.dropWhile isJsWs with
      | nil =>
        rw [hd2] at h
        exact Option.noConfusion h
      | cons c2 l3 =>
        rw [hd2] at h
        simp only at h
        by_cases hc2 : c2 = '['
        · rw [if_pos hc2] at h
          subst hc2
          rw [Option.some.injEq] at h
          subst h
          refine ⟨l.takeWhile isJsWs, l2.takeWhile isJsWs, ?_, ?_, ?_⟩
          · exact fun c hc => List.mem_takeWhile_imp hc
          · exact fun c hc => List.mem_takeWhile_imp hc
          · conv_lhs => rw [← List.takeWhile_append_dropWhile (p := isJsWs) (l := l)]
            rw [hd1]
            congr 1
            rw [List.cons.injEq]
            refine ⟨rfl, ?_⟩
            conv_lhs => rw [← List.takeWhile_append_dropWhile (p := isJsWs) (l := l2)]
            rw [hd2]
        · rw [if_neg hc2] at h
          exact Option.noConfusion h
    · rw [if_neg hc1] at h
      exact Option.noConfusion h

theorem matchMarker_decompose (l r : List Char) (h : matchMarker l = some r) :
    ∃ w1 w2, (∀ c ∈ w1, isJsWs c = true) ∧ (∀ c ∈ w2, isJsWs c = true) ∧
      l = markerLit ++ (w1 ++ ':' :: (w2 ++ '[' :: r)) := by
  rw [matchMarker] at h
  by_cases hp : markerLit.isPrefixOf l
  · rw [if_pos hp] at h
    obtain ⟨w1, w2, hw1, hw2, hdec⟩ := matchAfterLit_decompose (l.drop 8) r h
    refine ⟨w1, w2, hw1, hw2, ?_⟩
    have hpre : markerLit <+: l := List.isPrefixOf_iff_prefix.mp hp
    obtain ⟨t, ht⟩ := hpre
    have hdrop : l.drop 8 = t := by
      rw [← ht]
      have hlen : (8 : Nat) = markerLit.length := rfl
      rw [hlen, List.drop_left]
    rw [← ht, ← hdrop, hdec]
  · rw [if_neg hp] at h
    exact Option.noConfusion h

theorem matchMarker_build (w1 w2 tail : List Char)
    (hw1 : ∀ c ∈ w1, isJsWs c = true) (hw2 : ∀ c ∈ w2, isJsWs c = true) :
    matchMarker (markerLit ++ (w1 ++ ':' :: (w2 ++ '[' :: tail))) = some tail := by
  rw [matchMarker, if_pos ?hpre]
  case hpre =>
    apply List.isPrefixOf_iff_prefix.mpr
    exact ⟨w1 ++ ':' :: (w2 ++ '[' :: tail), rfl⟩
  have hdrop : (markerLit ++ (w1 ++ ':' :: (w2 ++ '[' :: tail))).drop 8 =
      w1 ++ ':' :: (w2 ++ '[' :: tail) := by
    have hlen : (8 : Nat) = markerLit.length := rfl
    rw [hlen, List.drop_left]
  rw [hdrop, matchAfterLit]
  rw [dropWhile_all_append isJsWs w1 ':' (w2 ++ '[' :: tail) hw1 (by decide)]
  simp only
  rw [dropWhile_all_append isJsWs w2 '[' tail hw2 (by decide)]
  simp

theorem isJsWs_spec (c : Char) (h : isJsWs c = true) :
    c = ' ' ∨ c = '\t' ∨ c = '\n' ∨ c = '\r' ∨ c = '\x0b' ∨ c = '\x0c' := by
  rw [isJsWs] at h
  simp only [Bool.or_eq_true, decide_eq_true_eq] at h
  tauto

theorem isJsWs_ne_quote (c : Char) (h : isJsWs c = true) : c ≠ '"' := by
  rcases isJsWs_spec c h with h|h|h|h|h|h <;> subst h <;> decide

theorem isJsWs_ne_g (c : Char) (h : isJsWs c = true) : c ≠ 'g' := by
  rcases isJsWs_spec c h with h|h|h|h|h|h <;> subst h <;> decide

theorem marker_head_quote (c : Char) (l : List Char) (h : markerLit <+: c :: l) :
    c = '"' := by
  rw [markerLit] at h
  exact (List.cons_prefix_cons.mp h).1.symm

theorem marker_second_g (c : Char) (l : List Char) (h : markerLit <+: '"' :: c :: l) :
    c = 'g' := by
  rw [markerLit] at h
  have h2 := (List.cons_prefix_cons.mp h).2
  exact (List.cons_prefix_cons.mp h2).1.symm

theorem prefix_append_cases {α : Type} (l A B : List α) (h : l <+: A ++ B) :
    l <+: A ∨ ∃ l2, l = A ++ l2 ∧ l2 <+: B := by
  induction A generalizing l with
  | nil =>
    right
    exact ⟨l, by rw [List.nil_append], by rwa [List.nil_append] at h⟩
  | cons a A2 ih =>
    cases l with
    | nil => exact Or.inl (List.nil_prefix)
    | cons x l2 =>
      rw [List.cons_append] at h
      obtain ⟨hx, hrest⟩ := List.cons_prefix_cons.mp h
      subst hx
      rcases ih l2 hrest with hA | ⟨l3, hl3, hl3p⟩
      · exact Or.inl (List.cons_prefix_cons.mpr ⟨rfl, hA⟩)
      · right
        exact ⟨l3, by rw [hl3, List.cons_append], hl3p⟩

theorem isPrefix_drop {α : Type} (l₁ l₂ : List α) (n : Nat) (h : l₁ <+: l₂) :
    l₁.drop n <+: l₂.drop n := by
  obtain ⟨t, ht⟩ := h
  rw [← ht, List.drop_append_eq_append_drop]
  exact ⟨t.drop (n - l₁.length), rfl⟩

theorem not_marker_prefix_drop (w1 w2 : List Char) (k : Nat)
    (hw1 : ∀ c ∈ w1, isJsWs c = true) (hw2 : ∀ c ∈ w2, isJsWs c = true) (hk : 1 ≤ k)
    (hcon : markerLit <+: (markerLit ++ (w1 ++ ':' :: w2)).drop k) : False := by
  by_cases h8 : k ≤ 8
  · have hdec : (markerLit ++ (w1 ++ ':' :: w2)).drop k =
        markerLit.drop k ++ (w1 ++ ':' :: w2) := by
      apply List.drop_append_of_le_length
      exact h8
    rw [hdec] at hcon
    interval_cases k
    · exact absurd (marker_head_quote _ _ hcon) (by decide)
    · exact absurd (marker_head_quote _ _ hcon) (by decide)
    · exact absurd (marker_head_quote _ _ hcon) (by decide)
    · exact absurd (marker_head_quote _ _ hcon) (by decide)
    · exact absurd (marker_head_quote _ _ hcon) (by decide)
    · exact absurd (marker_head_quote _ _ hcon) (by decide)
    · cases w1 with
      | nil =>
        have := marker_second_g ':' w2 (by simpa using hcon)
        exact absurd this (by decide)
      | cons c w1' =>
        have hg := marker_second_g c (w1' ++ ':' :: w2) (by simpa using hcon)
        exact isJsWs_ne_g c (hw1 c (List.mem_cons_self c w1')) hg
    · cases w1 with
      | nil =>
        have := marker_head_quote ':' w2 (by simpa using hcon)
        exact absurd this (by decide)
      | cons c w1' =>
        have hq := marker_head_quote c (w1' ++ ':' :: w2) (by simpa using hcon)
        exact isJsWs_ne_quote c (hw1 c (List.mem_cons_self c w1')) hq
  · have hdec : (markerLit ++ (w1 ++ ':' :: w2)).drop k =
        (w1 ++ ':' :: w2).drop (k - 8) := by
      rw [List.drop_append_eq_append_drop]
      have : markerLit.drop k = [] := by
        apply List.drop_eq_nil_of_le
        simp [markerLit]
        omega
      rw [this, List.nil_append]
      rfl
    rw [hdec] at hcon
    cases hd : (w1 ++ ':' :: w2).drop (k - 8) with
    | nil =>
      rw [hd] at hcon
      have := List.prefix_nil.mp hcon
      exact absurd this (by decide)
    | cons c rest =>
      rw [hd] at hcon
      have hcq := marker_head_quote c rest hcon
      have hcmem : c ∈ w1 ++ ':' :: w2 := by
        have : c ∈ (w1 ++ ':' :: w2).drop (k - 8) := by
          rw [hd]
          exact List.mem_cons_self c rest
        exact List.mem_of_mem_drop this
      rcases List.mem_append.mp hcmem with hm | hm
      · exact isJsWs_ne_quote c (hw1 c hm) hcq
      · rcases List.mem_cons.mp hm with he | hm2
        · rw [hcq] at he
          exact absurd he (by decide)
        · exact isJsWs_ne_quote c (hw2 c hm2) hcq

theorem findMarker_none_of_no_match (t : List Char)
    (h : ∀ k, matchMarker (t.drop k) = none) : findMarker t = none := by
  induction t with
  | nil => rfl
  | cons c r ih =>
    rw [findMarker]
    have h0 := h 0
    rw [List.drop_zero] at h0
    rw [h0]
    apply ih
    intro k
    have := h (k + 1)
    rwa [List.drop_succ_cons] at this

theorem findMarker_none_of_prefix_bad (c : Char) (t w1 w2 : List Char)
    (hw1 : ∀ x ∈ w1, isJsWs x = true) (hw2 : ∀ x ∈ w2, isJsWs x = true)
    (hA : c :: t <+: markerLit ++ (w1 ++ ':' :: w2)) : findMarker t = none := by
  apply findMarker_none_of_no_match
  intro k
  cases hmk : matchMarker (t.drop k) with
  | none => rfl
  | some rr =>
    exfalso
    obtain ⟨ww1, ww2, _, _, hdd⟩ := matchMarker_decompose _ rr hmk
    have hmpre : markerLit <+: t.drop k := ⟨_, hdd.symm⟩
    have hstep : t.drop k = (c :: t).drop (k + 1) := rfl
    have hdropPre : t.drop k <+: (markerLit ++ (w1 ++ ':' :: w2)).drop (k + 1) := by
      rw [hstep]
      exact isPrefix_drop _ _ (k + 1) hA
    exact not_marker_prefix_drop w1 w2 (k + 1) hw1 hw2 (by omega)
      (hmpre.trans hdropPre)

theorem matchMarker_append (l s r : List Char) (h : matchMarker l = some r) :
    matchMarker (l ++ s) = some (r ++ s) := by
  obtain ⟨w1, w2, hw1, hw2, hdec⟩ := matchMarker_decompose l r h
  rw [hdec]
  have heq : (markerLit ++ (w1 ++ ':' :: (w2 ++ '[' :: r))) ++ s =
      markerLit ++ (w1 ++ ':' :: (w2 ++ '[' :: (r ++ s))) := by
    simp [List.append_assoc]
  rw [heq]
  exact matchMarker_build w1 w2 (r ++ s) hw1 hw2

theorem findMarker_append (b s rem : List Char) (h : findMarker b = some rem) :
    findMarker (b ++ s) = some (rem ++ s) := by
  induction b with
  | nil => exact Option.noConfusion h
  | cons c t ih =>
    rw [findMarker] at h
    rw [List.cons_append, findMarker]
    cases hm : matchMarker (c :: t) with
    | some r =>
      rw [hm, Option.some.injEq] at h
      subst h
      have hap := matchMarker_append (c :: t) s r hm
      rw [List.cons_append] at hap
      rw [hap]
    | none =>
      rw [hm] at h
      have hnone : matchMarker (c :: (t ++ s)) = none := by
        cases hcon : matchMarker (c :: (t ++ s)) with
        | none => rfl
        | some r' =>
          exfalso
          obtain ⟨w1, w2, hw1, hw2, hdec⟩ := matchMarker_decompose _ r' hcon
          have hMeq : c :: (t ++ s) = (markerLit ++ (w1 ++ ':' :: w2)) ++ ('[' :: r') := by
            rw [hdec]
            simp [List.append_assoc]
          have hpre : c :: t <+: (markerLit ++ (w1 ++ ':' :: w2)) ++ ('[' :: r') := by
            rw [← hMeq]
            exact ⟨s, by rw [List.cons_append]⟩
          rcases prefix_append_cases _ _ _ hpre with hA | ⟨l2, hl2eq, hl2pre⟩
          · rw [findMarker_none_of_prefix_bad c t w1 w2 hw1 hw2 hA] at h
            exact Option.noConfusion h
          · cases l2 with
            | nil =>
              rw [List.append_nil] at hl2eq
              rw [findMarker_none_of_prefix_bad c t w1 w2 hw1 hw2
                (hl2eq ▸ List.prefix_refl _)] at h
              exact Option.noConfusion h
            | cons x l3 =>
              obtain ⟨u, hu⟩ := hl2pre
              rw [List.cons_append, List.cons.injEq] at hu
              obtain ⟨hx, _⟩ := hu
              subst hx
              have hbuild : matchMarker (c :: t) = some l3 := by
                rw [hl2eq]
                have heq2 : (markerLit ++ (w1 ++ ':' :: w2)) ++ '[' :: l3 =
                    markerLit ++ (w1 ++ ':' :: (w2 ++ '[' :: l3)) := by
                  simp [List.append_assoc]
                rw [heq2]
                exact matchMarker_build w1 w2 l3 hw1 hw2
              rw [hbuild] at hm
              exact Option.noConfusion hm
      rw [hnone]
      exact ih h

/-- One step of the brace-depth automaton of extractCompleteGroups
(src/unnamed/part_004 lines 217-250), as a fold step over characters:
state is (depth, inString, escaped). -/
def scanStep (st : Nat × Bool × Bool) (c : Char) : Nat × Bool × Bool :=
  if st.2.2 then (st.1, st.2.1, false)
  else if c = '\\' then (st.1, st.2.1, true)
  else if c = '"' then (st.1, !st.2.1, false)
  else if st.2.1 then (st.1, st.2.1, false)
  else if c = '\x7b' then (st.1 + 1, st.2.1, false)
  else if c = '\x7d' then (st.1 - 1, st.2.1, false)
  else (st.1, st.2.1, false)

/-- Run of the brace-depth automaton from the initial state. -/
def braceRun (l : List Char) : Nat × Bool × Bool :=
  l.foldl scanStep (0, false, false)

/-- Shape of a well-extracted object: opening brace first, closing brace
last, and the string-aware brace depth returns to zero. -/
def objShape (r : List Char) : Prop :=
  r.head? = some '\x7b' ∧ r.getLast? = some '\x7d' ∧ braceRun r = (0, false, false)

theorem getLast?_cons_of_some {α : Type} (a x : α) (l : List α)
    (h : l.getLast? = some x) : (a :: l).getLast? = some x := by
  cases l with
  | nil => cases h
  | cons b t =>
    rw [List.getLast?_cons_cons]
    exact h

theorem scanLoop_spec (l : List Char) :
    (∀ depth inS esc acc r, r ∈ scanLoop l (.inObj depth inS esc acc) →
       (∃ consumed, r = acc.reverse ++ consumed ∧ consumed.getLast? = some '\x7d' ∧
          List.foldl scanStep (depth, inS, esc) consumed = (0, false, false)) ∨
       objShape r) ∧
    (∀ r, r ∈ scanLoop l .between → objShape r) := by
  induction l with
  | nil =>
    constructor
    · intro depth inS esc acc r hr
      rw [scanLoop] at hr
      cases hr
    · intro r hr
      rw [scanLoop] at hr
      cases hr
  | cons c rest ih =>
    have stepCons : ∀ (d : Nat) (i e : Bool) (acc : List Char) (d2 : Nat) (i2 e2 : Bool) r,
        scanStep (d, i, e) c = (d2, i2, e2) →
        r ∈ scanLoop rest (.inObj d2 i2 e2 (c :: acc)) →
        (∃ consumed, r = acc.reverse ++ consumed ∧ consumed.getLast? = some '\x7d' ∧
           List.foldl scanStep (d, i, e) consumed = (0, false, false)) ∨
        objShape r := by
      intro d i e acc d2 i2 e2 r hstep hr
      rcases (ih.1 d2 i2 e2 (c :: acc) r hr) with ⟨consumed, hre, hlast, hfold⟩ | hobj
      · left
        refine ⟨c :: consumed, ?_, ?_, ?_⟩
        · rw [hre, List.reverse_cons, List.append_assoc]
          rfl
        · apply getLast?_cons_of_some
          exact hlast
        · rw [List.foldl_cons, hstep]
          exact hfold
      · exact Or.inr hobj
    constructor
    · intro depth inS esc acc r hr
      rw [scanLoop] at hr
      by_cases h1 : esc = true
      · rw [if_pos h1] at hr
        exact stepCons depth inS esc acc depth inS false r
          (by rw [scanStep]; simp [h1]) hr
      · rw [if_neg h1] at hr
        rw [Bool.not_eq_true] at h1
        by_cases h2 : c = '\\'
        · rw [if_pos h2] at hr
          exact stepCons depth inS esc acc depth inS true r
            (by rw [scanStep]; simp [h1, h2]) hr
        · rw [if_neg h2] at hr
          by_cases h3 : c = '"'
          · rw [if_pos h3] at hr
            exact stepCons depth inS esc acc depth (!inS) false r
              (by rw [scanStep]; simp [h1, h2, h3]) hr
          · rw [if_neg h3] at hr
            by_cases h4 : inS = true
            · rw [if_pos h4] at hr
              exact stepCons depth inS esc acc depth inS false r
                (by rw [scanStep]; simp [h1, h2, h3, h4]) hr
            · rw [if_neg h4] at hr
              rw [Bool.not_eq_true] at h4
              by_cases h5 : c = '\x7b'
              · rw [if_pos h5] at hr
                exact stepCons depth inS esc acc (depth + 1) inS false r
                  (by rw [scanStep]; simp [h1, h2, h3, h4, h5]) hr
              · rw [if_neg h5] at hr
                by_cases h6 : c = '\x7d'
                · rw [if_pos h6] at hr
                  by_cases h7 : depth = 1
                  · rw [if_pos h7] at hr
                    rcases List.mem_cons.mp hr with he | hrest
                    · left
                      refine ⟨['\x7d'], ?_, rfl, ?_⟩
                      · rw [he, h6, List.reverse_cons]
                      · rw [List.foldl_cons, List.foldl_nil]
                        rw [scanStep]
                        simp [h1, h2, h3, h4, h5, h7]
                    · exact Or.inr (ih.2 r hrest)
                  · rw [if_neg h7] at hr
                    exact stepCons depth inS esc acc (depth - 1) inS false r
                      (by rw [scanStep]; simp [h1, h2, h3, h4, h5, h6]) hr
                · rw [if_neg h6] at hr
                  exact stepCons depth inS esc acc depth inS false r
                    (by rw [scanStep]; simp [h1, h2, h3, h4, h5, h6]) hr
    · intro r hr
      rw [scanLoop] at hr
      by_cases h1 : isSkip c = true
      · rw [if_pos h1] at hr
        exact ih.2 r hr
      · rw [if_neg h1] at hr
        by_cases h2 : c = '\x7b'
        · rw [if_pos h2] at hr
          rcases (ih.1 1 false false ['\x7b'] r hr) with ⟨consumed, hre, hlast, hfold⟩ | hobj
          · rw [List.reverse_cons, List.reverse_nil, List.nil_append] at hre
            refine ⟨?_, ?_, ?_⟩
            · rw [hre]
              rfl
            · rw [hre]
              exact getLast?_cons_of_some _ _ _ hlast
            · rw [hre, braceRun, List.singleton_append, List.foldl_cons]
              have : scanStep (0, false, false) '\x7b' = (1, false, false) := by decide
              rw [this]
              exact hfold
          · exact hobj
        · rw [if_neg h2] at hr
          cases hr

/-- Growing the buffer only appends to the scanner's extraction. -/
theorem extract_mono (b s : String) :
    extractCompleteGroups b <+: extractCompleteGroups (b ++ s) := by
  cases hfm : findMarker b.data with
  | none =>
    rw [extractCompleteGroups, hfm]
    exact List.nil_prefix
  | some rem =>
    rw [extractCompleteGroups, extractCompleteGroups, hfm]
    have hdata : (b ++ s).data = b.data ++ s.data := String.data_append b s
    rw [hdata, findMarker_append b.data s.data rem hfm]
    obtain ⟨t, ht⟩ := scanLoop_prefix s.data rem ScanState.between
    exact ⟨t.map String.mk, by rw [← List.map_append, ht]⟩

/-- C9: buffer-extension monotonicity of the scanner: for every buffer and
suffix, the object strings extracted from the buffer form a prefix of
those extracted from the extended buffer — growing the buffer never
changes, reorders or removes already-extractable objects — and every
returned string is a brace-balanced object starting with an opening brace
and ending with a closing brace. -/
theorem C9_extract_monotone (b s : String) :
    extractCompleteGroups b <+: extractCompleteGroups (b ++ s) ∧
    ∀ r ∈ extractCompleteGroups b,
      r.data.head? = some '\x7b' ∧ r.data.getLast? = some '\x7d' ∧
      braceRun r.data = (0, false, false) := by
  constructor
  · exact extract_mono b s
  · intro r hr
    rw [extractCompleteGroups] at hr
    cases hfm : findMarker b.data with
    | none =>
      rw [hfm] at hr
      cases hr
    | some rem =>
      rw [hfm] at hr
      rw [List.mem_map] at hr
      obtain ⟨chars, hcmem, hre⟩ := hr
      have hshape := (scanLoop_spec rem).2 chars hcmem
      rw [← hre]
      exact hshape

/-- Witness for C9_extract_monotone: a buffer holding one complete and one
truncated object, extended by the rest of the response. -/
theorem C9_extract_monotone_witness :
    ("\x7b\"a\": 1\x7d" : String) ∈
        extractCompleteGroups "\x7b\"groups\": [\x7b\"a\": 1\x7d, \x7b\"b" ∧
    (("\x7b\"a\": 1\x7d" : String).data.head? = some '\x7b' ∧
     ("\x7b\"a\": 1\x7d" : String).data.getLast? = some '\x7d' ∧
     braceRun ("\x7b\"a\": 1\x7d" : String).data = (0, false, false)) ∧
    extractCompleteGroups "\x7b\"groups\": [\x7b\"a\": 1\x7d, \x7b\"b" <+:
      extractCompleteGroups ("\x7b\"groups\": [\x7b\"a\": 1\x7d, \x7b\"b" ++
        "\": 2\x7d]\x7d") :=
  ⟨by decide,
   (C9_extract_monotone "\x7b\"groups\": [\x7b\"a\": 1\x7d, \x7b\"b" "\": 2\x7d]\x7d").2
     "\x7b\"a\": 1\x7d" (by decide),
   (C9_extract_monotone "\x7b\"groups\": [\x7b\"a\": 1\x7d, \x7b\"b" "\": 2\x7d]\x7d").1⟩

/-- Parsed form of the valid suggestion object named a. -/
def jsonSugA : Json :=
  .obj [("name", .str "a"), ("message", .str "m"), ("files", .arr [])]

/-- Parsed form of the valid suggestion object named b. -/
def jsonSugB : Json :=
  .obj [("name", .str "b"), ("message", .str "m"), ("files", .arr [])]

/-- First streamed chunk of the failing input: an invalid object followed
by the complete valid object a. -/
def c6chunk1 : String :=
  "\x7b\"groups\": [ \x7b\"x\": 1\x7d, \x7b\"name\": \"a\", \"message\": \"m\", \"files\": []\x7d"

/-- Second streamed chunk: the complete valid object b and the close of
the array. -/
def c6chunk2 : String :=
  ", \x7b\"name\": \"b\", \"message\": \"m\", \"files\": []\x7d ]\x7d"

/-- C6 fails on the code: with an invalid object preceding a valid one,
the second chunk makes the emission loop restart at the emitted counter —
which counts only valid emissions but indexes all extracted objects — so
the already-emitted object a is emitted a second time: the final group
list is [a, a, b] instead of [a, b].  The invalid object is skipped
silently, as claimed. -/
theorem C6_duplicate_emission :
    analyzeStreamingResult (fun _ => false) [c6chunk1, c6chunk2] =
      Except.ok [jsonSugA, jsonSugA, jsonSugB] := by
  rfl

/-- A complete response whose earlier text contains a nested object under
a key named groups, before the true top-level groups array. -/
def nestedBuf : String :=
  "\x7b\"meta\": \x7b\"groups\": [\x7b\"name\": \"x\", \"message\": \"m\", \"files\": []\x7d]\x7d, \"groups\": [\x7b\"name\": \"real\", \"message\": \"r\", \"files\": []\x7d]\x7d"

/-- Parsed form of the decoy object inside the nested groups array. -/
def jsonSugX : Json :=
  .obj [("name", .str "x"), ("message", .str "m"), ("files", .arr [])]

/-- Parsed form of the one object of the true top-level groups array. -/
def jsonSugReal : Json :=
  .obj [("name", .str "real"), ("message", .str "r"), ("files", .arr [])]

/-- C5 counterexample: on a complete response with a nested groups array,
the streaming path extracts only the nested decoy object x while
parseResponse returns the true top-level array member real — two different
sets of valid group objects, already for the one-chunk splitting. -/
theorem C5_counterexample :
    analyzeStreamingResult (fun _ => false) [nestedBuf] = Except.ok [jsonSugX] ∧
    parseResponse nestedBuf = Except.ok [jsonSugReal] ∧
    isValidSug jsonSugX = true ∧ isValidSug jsonSugReal = true ∧
    jsonSugX ≠ jsonSugReal := by
  refine ⟨by rfl, by rfl, by rfl, by rfl, ?_⟩
  intro h
  rw [jsonSugX, jsonSugReal] at h
  injection h with h1
  injection h1 with h2 h3
  injection h2 with h4 h5
  injection h5 with h6
  exact absurd h6 (by decide)

/-- Validation composed with parsing, as applied to one extracted object
string of the stream. -/
def parseValidSug (s : String) : Option Json :=
  match jsonParse s with
  | some p => if isValidSug p then some p else none
  | none => none

theorem emitList_eq (lst : List String) : ∀ (ec : Nat) (gs : List Json),
    emitList lst ec gs =
      (ec + (lst.filterMap parseValidSug).length, gs ++ lst.filterMap parseValidSug) := by
  induction lst with
  | nil =>
    intro ec gs
    simp [emitList]
  | cons sj rest ih =>
    intro ec gs
    rw [emitList]
    cases hp : jsonParse sj with
    | some p =>
      dsimp only
      by_cases hv : isValidSug p = true
      · rw [if_pos hv, ih]
        have hps : parseValidSug sj = some p := by
          rw [parseValidSug, hp]
          dsimp only
          rw [if_pos hv]
        rw [List.filterMap_cons_some hps]
        rw [Prod.mk.injEq]
        constructor
        · rw [List.length_cons]
          omega
        · rw [List.append_assoc]
          rfl
      · rw [if_neg hv, ih]
        have hps : parseValidSug sj = none := by
          rw [parseValidSug, hp]
          dsimp only
          rw [if_neg hv]
        rw [List.filterMap_cons_none hps]
    | none =>
      dsimp only
      rw [ih]
      have hps : parseValidSug sj = none := by
        rw [parseValidSug, hp]
      rw [List.filterMap_cons_none hps]

theorem take_eq_of_prefix {α : Type} (l₁ l₂ : List α) (n : Nat) (h : l₁ <+: l₂)
    (hn : n ≤ l₁.length) : l₂.take n = l₁.take n := by
  obtain ⟨t, ht⟩ := h
  rw [← ht, List.take_append_eq_append_take]
  have : n - l₁.length = 0 := by omega
  rw [this, List.take_zero, List.append_nil]

theorem runChunks_inv (chunks : List String) : ∀ (i : Nat) (buffer : String) (ec : Nat)
    (gs : List Json),
    ec ≤ (extractCompleteGroups buffer).length →
    (∀ g, g ∈ gs ↔ g ∈ (extractCompleteGroups buffer).filterMap parseValidSug) →
    (runChunks (fun _ => false) chunks i buffer ec gs).1 =
        List.foldl (fun a ch => a ++ ch) buffer chunks ∧
    (runChunks (fun _ => false) chunks i buffer ec gs).2.1 ≤
        (extractCompleteGroups (runChunks (fun _ => false) chunks i buffer ec gs).1).length ∧
    (∀ g, g ∈ (runChunks (fun _ => false) chunks i buffer ec gs).2.2 ↔
       g ∈ (extractCompleteGroups
         (runChunks (fun _ => false) chunks i buffer ec gs).1).filterMap parseValidSug) := by
  induction chunks with
  | nil =>
    intro i buffer ec gs hec hgs
    exact ⟨rfl, hec, hgs⟩
  | cons ch rest ih =>
    intro i buffer ec gs hec hgs
    rw [runChunks, if_neg (by simp)]
    have hemit := emitList_eq ((extractCompleteGroups (buffer ++ ch)).drop ec) ec gs
    have hproc : processChunk buffer ec gs ch =
        (buffer ++ ch,
         ec + (((extractCompleteGroups (buffer ++ ch)).drop ec).filterMap parseValidSug).length,
         gs ++ ((extractCompleteGroups (buffer ++ ch)).drop ec).filterMap parseValidSug) := by
      rw [processChunk]
      rw [hemit]
    rw [hproc]
    have hpref : extractCompleteGroups buffer <+: extractCompleteGroups (buffer ++ ch) :=
      extract_mono buffer ch
    have hlenle : (extractCompleteGroups buffer).length ≤
        (extractCompleteGroups (buffer ++ ch)).length := hpref.length_le
    have hec2 : ec + (((extractCompleteGroups (buffer ++ ch)).drop ec).filterMap
        parseValidSug).length ≤ (extractCompleteGroups (buffer ++ ch)).length := by
      have h1 := List.length_filterMap_le parseValidSug
        ((extractCompleteGroups (buffer ++ ch)).drop ec)
      have h2 := List.length_drop ec (extractCompleteGroups (buffer ++ ch))
      omega
    have hgs2 : ∀ g, g ∈ gs ++ ((extractCompleteGroups (buffer ++ ch)).drop ec).filterMap
        parseValidSug ↔
        g ∈ (extractCompleteGroups (buffer ++ ch)).filterMap parseValidSug := by
      intro g
      constructor
      · intro hg
        rcases List.mem_append.mp hg with hg1 | hg2
        · exact (List.IsPrefix.filterMap parseValidSug hpref).sublist.mem
            ((hgs g).mp hg1)
        · exact (List.Sublist.filterMap parseValidSug
            (List.drop_sublist ec _)).mem hg2
      · intro hg
        rw [← List.take_append_drop ec (extractCompleteGroups (buffer ++ ch)),
          List.filterMap_append] at hg
        rcases List.mem_append.mp hg with hg1 | hg2
        · apply List.mem_append_left
          apply (hgs g).mpr
          have htake : (extractCompleteGroups (buffer ++ ch)).take ec =
              (extractCompleteGroups buffer).take ec :=
            take_eq_of_prefix _ _ ec hpref hec
          rw [htake] at hg1
          exact (List.Sublist.filterMap parseValidSug
            (List.take_sublist ec _)).mem hg1
        · exact List.mem_append_right _ hg2
    have := ih (i + 1) (buffer ++ ch)
      (ec + (((extractCompleteGroups (buffer ++ ch)).drop ec).filterMap parseValidSug).length)
      (gs ++ ((extractCompleteGroups (buffer ++ ch)).drop ec).filterMap parseValidSug)
      hec2 hgs2
    rw [List.foldl_cons]
    exact this

/-- C5 (amended): streaming is chunking-insensitive: for every complete
response text and every way of splitting it into chunks, (1) the streaming
analysis yields the same valid group objects membership-wise as feeding
the whole response as one single chunk, (2) the full-parse fallback is
taken on the chunked run exactly when it is taken on the single-chunk run,
and (3) when it is taken, the two runs return the identical full-parse
result — the same ok value or the same error.  Agreement with
parseResponse on the complete buffer does not hold in general (see the
nested groups counterexample). -/
theorem C5_streaming_chunk_invariant (chunks : List String) :
    (∀ g : Json,
      (∃ l, analyzeStreamingResult (fun _ => false) chunks = Except.ok l ∧ g ∈ l) ↔
      (∃ l, analyzeStreamingResult (fun _ => false) [String.join chunks] = Except.ok l ∧
        g ∈ l)) ∧
    ((runChunks (fun _ => false) chunks 0 "" 0 []).2.2 = [] ↔
      (runChunks (fun _ => false) [String.join chunks] 0 "" 0 []).2.2 = []) ∧
    ((runChunks (fun _ => false) chunks 0 "" 0 []).2.2 = [] →
      analyzeStreamingResult (fun _ => false) chunks =
        analyzeStreamingResult (fun _ => false) [String.join chunks]) := by
  have base2 : ∀ x : Json, x ∈ ([] : List Json) ↔
      x ∈ (extractCompleteGroups "").filterMap parseValidSug := by
    intro x
    constructor
    · intro hx
      cases hx
    · intro hx
      rw [show extractCompleteGroups "" = [] from rfl] at hx
      cases hx
  obtain ⟨hbuf1, hec1, hmem1⟩ := runChunks_inv chunks 0 "" 0 [] (Nat.zero_le _) base2
  obtain ⟨hbuf2, hec2, hmem2⟩ :=
    runChunks_inv [String.join chunks] 0 "" 0 [] (Nat.zero_le _) base2
  have hbeq : (runChunks (fun _ => false) chunks 0 "" 0 []).1 =
      (runChunks (fun _ => false) [String.join chunks] 0 "" 0 []).1 := by
    rw [hbuf1, hbuf2]
    show List.foldl (fun a ch => a ++ ch) "" chunks = "" ++ String.join chunks
    rw [String.join]
    generalize List.foldl (fun r s => r ++ s) "" chunks = z
    cases z with
    | mk d => rfl
  have hsets : ∀ x : Json, x ∈ (runChunks (fun _ => false) chunks 0 "" 0 []).2.2 ↔
      x ∈ (runChunks (fun _ => false) [String.join chunks] 0 "" 0 []).2.2 := by
    intro x
    rw [hmem1 x, hmem2 x, hbeq]
  have hnil : (runChunks (fun _ => false) chunks 0 "" 0 []).2.2 = [] ↔
      (runChunks (fun _ => false) [String.join chunks] 0 "" 0 []).2.2 = [] := by
    rw [List.eq_nil_iff_forall_not_mem, List.eq_nil_iff_forall_not_mem]
    constructor
    · intro h x hx
      exact h x ((hsets x).mpr hx)
    · intro h x hx
      exact h x ((hsets x).mp hx)
  refine ⟨?_, hnil, ?_⟩
  · intro g
    simp only [analyzeStreamingResult]
    by_cases hempty : (runChunks (fun _ => false) chunks 0 "" 0 []).2.2.isEmpty = true
    · have hempty2 : (runChunks (fun _ => false) [String.join chunks] 0 "" 0 []).2.2.isEmpty
          = true := by
        rw [List.isEmpty_iff, List.eq_nil_iff_forall_not_mem] at hempty ⊢
        intro x hx
        exact hempty x ((hsets x).mpr hx)
      rw [if_pos hempty, if_pos hempty2, hbeq]
    · have hempty2 : ¬ ((runChunks (fun _ => false) [String.join chunks] 0 "" 0 []).2.2.isEmpty
          = true) := by
        rw [List.isEmpty_iff, List.eq_nil_iff_forall_not_mem] at hempty ⊢
        intro hcon
        apply hempty
        intro x hx
        exact hcon x ((hsets x).mp hx)
      rw [if_neg hempty, if_neg hempty2]
      constructor
      · rintro ⟨l, hl, hg⟩
        rw [Except.ok.injEq] at hl
        subst hl
        exact ⟨_, rfl, (hsets g).mp hg⟩
      · rintro ⟨l, hl, hg⟩
        rw [Except.ok.injEq] at hl
        subst hl
        exact ⟨_, rfl, (hsets g).mpr hg⟩
  · intro hfall
    have hfall2 : (runChunks (fun _ => false) [String.join chunks] 0 "" 0 []).2.2 = [] :=
      hnil.mp hfall
    simp only [analyzeStreamingResult]
    rw [if_pos (List.isEmpty_iff.mpr hfall), if_pos (List.isEmpty_iff.mpr hfall2), hbeq]

/-- Witness for C5_streaming_chunk_invariant at a concrete splitting on
which streaming emits nothing: the two runs return the identical
full-parse fallback result. -/
theorem C5_streaming_chunk_invariant_witness :
    analyzeStreamingResult (fun _ => false) ["no marker ", "here"] =
      analyzeStreamingResult (fun _ => false) [String.join ["no marker ", "here"]] :=
  (C5_streaming_chunk_invariant ["no marker ", "here"]).2.2 rfl

end Splitify
